import Mathlib

/-!
A shallow embedding of `src/context.ts` (the `@6river/context` package):
a cancellation-and-deadline propagation tree in the style of Go's
`context` package, written in TypeScript.

Contexts are modelled as a heap (`List Node`) of cancellable nodes
addressed by their allocation index; `Ctx.background` stands for the
shared `EmptyCtx` singleton (its `done()` promise is the shared
`blockForever` instance, its deadline and error are always `null`).
Every heap node corresponds to a `CancelCtx` instance; a node whose
`dl` field is `some d` is a `TimerCtx` (class `TimerCtx extends
CancelCtx` with `_deadline = d`), a node with `dl = none` is a plain
`CancelCtx`.  The `timer` flag records whether a `setTimeout` handle is
pending on the node.  Times (`Date`, `Date.now()`) are integers
(milliseconds).

The repository's only context implementations are `EmptyCtx`,
`CancelCtx` and `TimerCtx`, so `parentCancelCtx` (an `instanceof
CancelCtx` test) succeeds exactly on heap nodes, and the
`Promise.race` fallback branch of `propagateCancel` is unreachable for
the contexts this repository can build; the embedding covers the
reachable branches.

`cancel` in the source recurses through the tracked-children sets; the
embedding gives the recursion explicit fuel (structural, so that the
kernel can evaluate it) and every entry point supplies fuel
`heap.length + 1`, which is strictly larger than any possible cascade
depth because a tracked child always has a larger heap index than its
registering parent.
-/

namespace SixRiverContext

/-- The two terminal error values of the source: `cancelledErr`
(`'context cancelled'`) and `deadlineExceededErr`
(`'context deadline exceeded'`). -/
inductive Err
  | cancelled
  | deadlineExceeded
deriving DecidableEq, Repr

/-- A context reference: the background/empty singleton or a heap node. -/
inductive Ctx
  | background
  | node (id : Nat)
deriving DecidableEq, Repr

/-- The mutable state of one `CancelCtx` (or `TimerCtx`) instance.
`parent` is the constructor argument; `err` is the terminal-error slot
(`null` until the first cancel); `children` is the lazily created
`Set<Canceler>` of tracked children (`[]` plays the role of the absent
set); `dl` is `some d` exactly when the object is a `TimerCtx` with
`_deadline = d`; `timer` records a pending `setTimeout` handle. -/
structure Node where
  parent : Ctx
  err : Option Err
  children : List Nat
  dl : Option Int
  timer : Bool
deriving DecidableEq, Repr

abbrev Heap := List Node

/-- The whole program state: the heap of allocated cancellable nodes
(node ids are allocation order) and the current clock (`Date.now()`). -/
structure State where
  heap : Heap
  now : Int
deriving DecidableEq, Repr

/-- Update the node stored at index `id` (no-op when out of range). -/
def setNode : Heap → Nat → (Node → Node) → Heap
  | [], _, _ => []
  | n :: t, 0, f => f n :: t
  | n :: t, Nat.succ id, f => n :: setNode t id f

/-- `error()` of the node at `id` (`none` when absent). -/
def errOf (h : Heap) (id : Nat) : Option Err :=
  (h.get? id).bind (fun n => n.err)

/-- The tracked-children set of the node at `id`. -/
def childrenOf (h : Heap) (id : Nat) : List Nat :=
  match h.get? id with
  | some n => n.children
  | none => []

/-- The `_deadline` field (`some` exactly for `TimerCtx` nodes). -/
def dlOf (h : Heap) (id : Nat) : Option Int :=
  (h.get? id).bind (fun n => n.dl)

/-- Whether a `setTimeout` handle is pending on the node at `id`. -/
def timerOf (h : Heap) (id : Nat) : Bool :=
  match h.get? id with
  | some n => n.timer
  | none => false

/-- The parent reference of the node at `id`. -/
def parentOf (h : Heap) (id : Nat) : Option Ctx :=
  (h.get? id).map (fun n => n.parent)

/-- A node exists and its terminal-error slot is still empty. -/
def liveN (h : Heap) (id : Nat) : Bool :=
  match h.get? id with
  | some n => n.err = none
  | none => false

/-- `parentCancelCtx`: follows the parent reference looking for a
`CancelCtx`; in this repository every non-background context is a
`CancelCtx`, so it is an `instanceof` test on the reference itself. -/
def parentCancelCtx : Ctx → Option Nat
  | .background => none
  | .node id => some id

/-- `removeChild(parent, child)`: delete `child` from the parent's
tracked-children set, if the parent is a `CancelCtx` and has one. -/
def removeChild (h : Heap) (parent : Ctx) (childId : Nat) : Heap :=
  match parentCancelCtx parent with
  | none => h
  | some pid =>
      setNode h pid (fun p =>
        { p with children := p.children.filter (fun c => c != childId) })

/-- The tail of `TimerCtx.cancel`: `if (this.timer) { clearTimeout(this.timer);
this.timer = undefined; }`. -/
def clearTimer (h : Heap) (id : Nat) : Heap :=
  match h.get? id with
  | some n =>
      if n.timer then setNode h id (fun m => { m with timer := false }) else h
  | none => h

/-- Sequentially apply `f` along a list (the `for (const child of
this.children)` loop of `CancelCtx.cancel`). -/
def cascadeWith (f : Heap → Nat → Heap) : Heap → List Nat → Heap
  | h, [] => h
  | h, c :: cs => cascadeWith f (f h c) cs

/-- `CancelCtx.cancel(removeFromParent, err)` with the `TimerCtx`
override layered on top (the final `clearTimer` step runs exactly when
the node is a `TimerCtx`, i.e. `dl.isSome`), with explicit fuel for the
cascade recursion.  Mirrors the source: bail out if already cancelled
(`this.err` set); otherwise record the error, cancel every tracked
child with `removeFromParent = false` and the same error, and finally
remove itself from its parent's set when asked to.  Note the source
does NOT clear `this.children` (its own field comment says the first
cancel call should). -/
def cancelNode : Nat → Heap → Nat → Bool → Err → Heap
  | 0, h, _, _, _ => h
  | Nat.succ fuel, h, id, rfp, e =>
    match h.get? id with
    | none => h
    | some n =>
        let base :=
          if n.err.isSome then h
          else
            let h1 := setNode h id (fun m => { m with err := some e })
            let h2 := cascadeWith (fun hh c => cancelNode fuel hh c false e) h1 n.children
            if rfp then removeChild h2 n.parent id else h2
        if n.dl.isSome then clearTimer base id else base

/-- Run `cancel(rfp, e)` on node `id` with enough fuel for any cascade
that a well-formed heap can produce. -/
def cancelWrap (s : State) (id : Nat) (rfp : Bool) (e : Err) : State :=
  { s with heap := cancelNode (s.heap.length + 1) s.heap id rfp e }

/-- The internal `cancel` entry point including the defensive
`if (!err) throw Error('context: internal error: missing cancel error')`
check that guards every call. -/
def cancelOp (s : State) (id : Nat) (rfp : Bool) (e : Option Err) :
    Except String State :=
  match e with
  | none => Except.error "context: internal error: missing cancel error"
  | some err => Except.ok (cancelWrap s id rfp err)

/-- The zero-argument cancel closure returned by `withCancel` /
`withDeadline`: `() => c.cancel(true, cancelledErr)`. -/
def cancelClosure (s : State) (id : Nat) : State :=
  cancelWrap s id true Err.cancelled

/-- `propagateCancel(parent, child)`: skip when the parent's `done()`
is the shared `blockForever` promise (only the background context);
otherwise find the nearest `CancelCtx` (the parent itself here) — if it
is already cancelled, cancel the child immediately with the parent's
error and do not register it; if it is live, add the child to its
(lazily created) children set. -/
def propagateCancel (s : State) (parent : Ctx) (childId : Nat) : State :=
  match parent with
  | .background => s
  | .node pid =>
    match s.heap.get? pid with
    | none => s
    | some p =>
      match p.err with
      | some e => cancelWrap s childId false e
      | none =>
          { s with heap := setNode s.heap pid (fun m =>
              { m with children :=
                  if childId ∈ m.children then m.children
                  else m.children ++ [childId] }) }

/-- `withCancel(parent)`: allocate a fresh `CancelCtx`, link it to the
parent, and return it (the paired cancel closure is `cancelClosure`
applied to the returned id). -/
def withCancel (s : State) (parent : Ctx) : State × Ctx :=
  let id := s.heap.length
  let c : Node :=
    { parent := parent, err := none, children := [], dl := none, timer := false }
  let s1 : State := { s with heap := s.heap ++ [c] }
  (propagateCancel s1 parent id, Ctx.node id)

/-- `deadline()` of a context: `null` for the background context and
for plain `CancelCtx` nodes, the fixed `_deadline` for `TimerCtx`. -/
def ctxDeadline (s : State) : Ctx → Option Int
  | .background => none
  | .node id => dlOf s.heap id

/-- `error()` of a context. -/
def ctxError (s : State) : Ctx → Option Err
  | .background => none
  | .node id => errOf s.heap id

/-- The `TimerCtx` branch of `withDeadline`: allocate the timer node,
link it, and either cancel immediately (deadline already passed) or
schedule the timer if the node is still live after linking. -/
def withDeadlineTimer (s : State) (parent : Ctx) (deadline : Int) :
    State × Ctx :=
  let id := s.heap.length
  let c : Node :=
    { parent := parent, err := none, children := [], dl := some deadline,
      timer := false }
  let s1 : State := { s with heap := s.heap ++ [c] }
  let s2 := propagateCancel s1 parent id
  let d : Int := deadline - s2.now
  if d ≤ 0 then
    (cancelWrap s2 id true Err.deadlineExceeded, Ctx.node id)
  else
    match s2.heap.get? id with
    | some n =>
        if n.err = none then
          ({ s2 with heap := setNode s2.heap id (fun m => { m with timer := true }) },
           Ctx.node id)
        else (s2, Ctx.node id)
    | none => (s2, Ctx.node id)

/-- `withDeadline(parent, d)`: if the parent already has a strictly
earlier deadline, degrade to `withCancel(parent)`; otherwise build a
`TimerCtx` as above. -/
def withDeadline (s : State) (parent : Ctx) (deadline : Int) : State × Ctx :=
  match ctxDeadline s parent with
  | some pd =>
      if pd < deadline then withCancel s parent
      else withDeadlineTimer s parent deadline
  | none => withDeadlineTimer s parent deadline

/-- `withTimeout(parent, ms) = withDeadline(parent, Date.now() + ms)`. -/
def withTimeout (s : State) (parent : Ctx) (ms : Int) : State × Ctx :=
  withDeadline s parent (s.now + ms)

/-- The externally observable operations on the context tree: the
derivation factories, invoking a returned cancel closure, a pending
timer firing (`setTimeout` callback: `c.cancel(true,
deadlineExceededErr)`, which only runs while the handle is pending),
and the clock advancing. -/
inductive Op
  | opWithCancel (parent : Ctx)
  | opWithDeadline (parent : Ctx) (deadline : Int)
  | opWithTimeout (parent : Ctx) (ms : Int)
  | opCancel (id : Nat)
  | opTimerFire (id : Nat)
  | opTick (ms : Int)
deriving Repr

/-- One step of the operational model. -/
def step (s : State) : Op → State
  | .opWithCancel parent => (withCancel s parent).1
  | .opWithDeadline parent d => (withDeadline s parent d).1
  | .opWithTimeout parent ms => (withTimeout s parent ms).1
  | .opCancel id => cancelClosure s id
  | .opTimerFire id =>
      if timerOf s.heap id then cancelWrap s id true Err.deadlineExceeded else s
  | .opTick ms => { s with now := s.now + ms }

/-- Run a sequence of operations. -/
def runOps (s : State) (ops : List Op) : State :=
  ops.foldl step s

/-- The initial state: no cancellable node allocated yet. -/
def initState : State := { heap := [], now := 0 }

/-! ### Basic heap lemmas -/

theorem setNode_length (h : Heap) (id : Nat) (f : Node → Node) :
    (setNode h id f).length = h.length := by
  induction h generalizing id with
  | nil => rfl
  | cons n t ih =>
    cases id with
    | zero => rfl
    | succ id => simp [setNode, ih]

theorem setNode_get_self (h : Heap) (id : Nat) (f : Node → Node) :
    (setNode h id f).get? id = (h.get? id).map f := by
  induction h generalizing id with
  | nil => cases id <;> rfl
  | cons n t ih =>
    cases id with
    | zero => rfl
    | succ id => simpa [setNode] using ih id

theorem setNode_get_other (h : Heap) (id j : Nat) (f : Node → Node)
    (hj : j ≠ id) : (setNode h id f).get? j = h.get? j := by
  induction h generalizing id j with
  | nil => cases id <;> rfl
  | cons n t ih =>
    cases id with
    | zero =>
      cases j with
      | zero => exact absurd rfl hj
      | succ j => rfl
    | succ id =>
      cases j with
      | zero => rfl
      | succ j =>
        have : j ≠ id := fun h' => hj (by simp [h'])
        simpa [setNode] using ih id j this

theorem errOf_setNode_of (h : Heap) (x j : Nat) (f : Node → Node)
    (hf : ∀ m, (f m).err = m.err) :
    errOf (setNode h x f) j = errOf h j := by
  unfold errOf
  by_cases hj : j = x
  · subst hj
    rw [setNode_get_self]
    cases h.get? j with
    | none => rfl
    | some n => simp [hf]
  · rw [setNode_get_other h x j f hj]

theorem childrenOf_setNode_of (h : Heap) (x j : Nat) (f : Node → Node)
    (hf : ∀ m, (f m).children = m.children) :
    childrenOf (setNode h x f) j = childrenOf h j := by
  unfold childrenOf
  by_cases hj : j = x
  · subst hj
    rw [setNode_get_self]
    cases h.get? j with
    | none => rfl
    | some n => simp [hf]
  · rw [setNode_get_other h x j f hj]

theorem dlOf_setNode_of (h : Heap) (x j : Nat) (f : Node → Node)
    (hf : ∀ m, (f m).dl = m.dl) :
    dlOf (setNode h x f) j = dlOf h j := by
  unfold dlOf
  by_cases hj : j = x
  · subst hj
    rw [setNode_get_self]
    cases h.get? j with
    | none => rfl
    | some n => simp [hf]
  · rw [setNode_get_other h x j f hj]

theorem parentOf_setNode_of (h : Heap) (x j : Nat) (f : Node → Node)
    (hf : ∀ m, (f m).parent = m.parent) :
    parentOf (setNode h x f) j = parentOf h j := by
  unfold parentOf
  by_cases hj : j = x
  · subst hj
    rw [setNode_get_self]
    cases h.get? j with
    | none => rfl
    | some n => simp [hf]
  · rw [setNode_get_other h x j f hj]

theorem timerOf_setNode_of (h : Heap) (x j : Nat) (f : Node → Node)
    (hf : ∀ m, (f m).timer = m.timer) :
    timerOf (setNode h x f) j = timerOf h j := by
  unfold timerOf
  by_cases hj : j = x
  · subst hj
    rw [setNode_get_self]
    cases h.get? j with
    | none => rfl
    | some n => simp [hf]
  · rw [setNode_get_other h x j f hj]

/-! ### clearTimer lemmas -/

theorem clearTimer_length (h : Heap) (id : Nat) :
    (clearTimer h id).length = h.length := by
  unfold clearTimer
  cases h.get? id with
  | none => rfl
  | some n =>
    by_cases ht : n.timer <;> simp [ht, setNode_length]

theorem errOf_clearTimer (h : Heap) (id j : Nat) :
    errOf (clearTimer h id) j = errOf h j := by
  unfold clearTimer
  cases h.get? id with
  | none => rfl
  | some n =>
    by_cases ht : n.timer <;> simp [ht, errOf_setNode_of]

theorem childrenOf_clearTimer (h : Heap) (id j : Nat) :
    childrenOf (clearTimer h id) j = childrenOf h j := by
  unfold clearTimer
  cases h.get? id with
  | none => rfl
  | some n =>
    by_cases ht : n.timer <;> simp [ht, childrenOf_setNode_of]

theorem dlOf_clearTimer (h : Heap) (id j : Nat) :
    dlOf (clearTimer h id) j = dlOf h j := by
  unfold clearTimer
  cases h.get? id with
  | none => rfl
  | some n =>
    by_cases ht : n.timer <;> simp [ht, dlOf_setNode_of]

theorem parentOf_clearTimer (h : Heap) (id j : Nat) :
    parentOf (clearTimer h id) j = parentOf h j := by
  unfold clearTimer
  cases h.get? id with
  | none => rfl
  | some n =>
    by_cases ht : n.timer <;> simp [ht, parentOf_setNode_of]

theorem timerOf_clearTimer_self (h : Heap) (id : Nat) :
    timerOf (clearTimer h id) id = false := by
  unfold clearTimer
  cases hg : h.get? id with
  | none => unfold timerOf; rw [hg]
  | some n =>
    dsimp only
    by_cases ht : n.timer
    · rw [if_pos ht]
      unfold timerOf
      rw [setNode_get_self, hg]
      rfl
    · rw [if_neg ht]
      unfold timerOf
      rw [hg]
      exact Bool.not_eq_true n.timer |>.mp ht

theorem timerOf_clearTimer_le (h : Heap) (id j : Nat) :
    timerOf (clearTimer h id) j = true → timerOf h j = true := by
  unfold clearTimer
  cases hg : h.get? id with
  | none => exact fun hx => hx
  | some n =>
    by_cases ht : n.timer
    · simp only [ht, if_pos]
      by_cases hj : j = id
      · subst hj
        unfold timerOf
        rw [setNode_get_self, hg]
        simp
      · unfold timerOf
        rw [setNode_get_other h id j _ hj]
        exact fun hx => hx
    · simp only [ht]
      exact fun hx => by simpa using hx

/-! ### removeChild lemmas -/

theorem removeChild_length (h : Heap) (p : Ctx) (c : Nat) :
    (removeChild h p c).length = h.length := by
  unfold removeChild
  cases p with
  | background => rfl
  | node pid => simp [parentCancelCtx, setNode_length]

theorem errOf_removeChild (h : Heap) (p : Ctx) (c j : Nat) :
    errOf (removeChild h p c) j = errOf h j := by
  unfold removeChild
  cases p with
  | background => rfl
  | node pid => simp [parentCancelCtx, errOf_setNode_of]

theorem dlOf_removeChild (h : Heap) (p : Ctx) (c j : Nat) :
    dlOf (removeChild h p c) j = dlOf h j := by
  unfold removeChild
  cases p with
  | background => rfl
  | node pid => simp [parentCancelCtx, dlOf_setNode_of]

theorem parentOf_removeChild (h : Heap) (p : Ctx) (c j : Nat) :
    parentOf (removeChild h p c) j = parentOf h j := by
  unfold removeChild
  cases p with
  | background => rfl
  | node pid => simp [parentCancelCtx, parentOf_setNode_of]

theorem timerOf_removeChild (h : Heap) (p : Ctx) (c j : Nat) :
    timerOf (removeChild h p c) j = timerOf h j := by
  unfold removeChild
  cases p with
  | background => rfl
  | node pid => simp [parentCancelCtx, timerOf_setNode_of]

theorem childrenOf_removeChild_other (h : Heap) (pid c j : Nat)
    (hj : j ≠ pid) :
    childrenOf (removeChild h (Ctx.node pid) c) j = childrenOf h j := by
  unfold removeChild
  simp only [parentCancelCtx]
  unfold childrenOf
  rw [setNode_get_other h pid j _ hj]

theorem childrenOf_removeChild_self (h : Heap) (pid c : Nat) :
    childrenOf (removeChild h (Ctx.node pid) c) pid =
      (childrenOf h pid).filter (fun x => x != c) := by
  unfold removeChild
  simp only [parentCancelCtx]
  unfold childrenOf
  rw [setNode_get_self]
  cases h.get? pid with
  | none => rfl
  | some n => rfl

theorem childrenOf_removeChild_background (h : Heap) (c j : Nat) :
    childrenOf (removeChild h Ctx.background c) j = childrenOf h j := rfl

/-! ### cascadeWith fold lemma -/

theorem cascadeWith_pres {P : Heap → Prop} (f : Heap → Nat → Heap) :
    ∀ (cs : List Nat) (h : Heap),
      (∀ hh c, c ∈ cs → P hh → P (f hh c)) → P h → P (cascadeWith f h cs) := by
  intro cs
  induction cs with
  | nil => intro h _ hP; exact hP
  | cons c cs ih =>
    intro h hstep hP
    unfold cascadeWith
    exact ih (f h c)
      (fun hh c' hc' => hstep hh c' (List.mem_cons_of_mem _ hc'))
      (hstep h c (List.mem_cons_self _ _) hP)

/-! ### cancelNode case equations -/

theorem cancelNode_succ_none (fuel : Nat) (h : Heap) (id : Nat) (rfp : Bool)
    (e : Err) (hg : h.get? id = none) :
    cancelNode (fuel + 1) h id rfp e = h := by
  simp only [cancelNode, hg]

theorem cancelNode_succ_settled (fuel : Nat) (h : Heap) (id : Nat) (rfp : Bool)
    (e : Err) (n : Node) (hg : h.get? id = some n) (he : n.err.isSome = true) :
    cancelNode (fuel + 1) h id rfp e =
      (if n.dl.isSome then clearTimer h id else h) := by
  simp only [cancelNode, hg, he, if_true]

theorem cancelNode_succ_live (fuel : Nat) (h : Heap) (id : Nat) (rfp : Bool)
    (e : Err) (n : Node) (hg : h.get? id = some n) (he : n.err = none) :
    cancelNode (fuel + 1) h id rfp e =
      (let h2 := cascadeWith (fun hh c => cancelNode fuel hh c false e)
          (setNode h id (fun m => { m with err := some e })) n.children
       let h3 := if rfp then removeChild h2 n.parent id else h2
       if n.dl.isSome then clearTimer h3 id else h3) := by
  simp only [cancelNode, hg, he, Option.isSome_none, Bool.false_eq_true, if_false]

/-- Generic observable preserved by `cancelNode` (any `removeFromParent`):
anything untouched by recording an error, by `removeChild` and by
`clearTimer`. -/
theorem obs_cancelNode {α : Type} (G : Heap → Nat → α)
    (hset : ∀ h x e j, G (setNode h x (fun m => { m with err := some e })) j = G h j)
    (hrem : ∀ h p c j, G (removeChild h p c) j = G h j)
    (hclr : ∀ h x j, G (clearTimer h x) j = G h j) :
    ∀ (fuel : Nat) (h : Heap) (id : Nat) (rfp : Bool) (e : Err) (j : Nat),
      G (cancelNode fuel h id rfp e) j = G h j := by
  intro fuel
  induction fuel with
  | zero => intro h id rfp e j; rfl
  | succ fuel ih =>
    intro h id rfp e j
    cases hg : h.get? id with
    | none => rw [cancelNode_succ_none fuel h id rfp e hg]
    | some n =>
      cases he : n.err with
      | some e0 =>
        rw [cancelNode_succ_settled fuel h id rfp e n hg (by rw [he]; rfl)]
        by_cases hd : n.dl.isSome
        · rw [if_pos hd, hclr]
        · rw [if_neg hd]
      | none =>
        rw [cancelNode_succ_live fuel h id rfp e n hg he]
        have h2eq : G (cascadeWith (fun hh c => cancelNode fuel hh c false e)
            (setNode h id (fun m => { m with err := some e })) n.children) j = G h j := by
          refine cascadeWith_pres (P := fun hh => G hh j = G h j) _ n.children _
            (fun hh c _ hP => (ih hh c false e j).trans hP) (hset h id e j)
        dsimp only
        by_cases hr : rfp
        · by_cases hd : n.dl.isSome
          · rw [if_pos hr, if_pos hd, hclr, hrem, h2eq]
          · rw [if_pos hr, if_neg hd, hrem, h2eq]
        · by_cases hd : n.dl.isSome
          · rw [if_neg hr, if_pos hd, hclr, h2eq]
          · rw [if_neg hr, if_neg hd, h2eq]

/-- Generic observable preserved by `cancelNode` with
`removeFromParent = false` (everything a cascade leaves alone, in
particular the tracked-children sets). -/
theorem obs_cancelNode_false {α : Type} (G : Heap → Nat → α)
    (hset : ∀ h x e j, G (setNode h x (fun m => { m with err := some e })) j = G h j)
    (hclr : ∀ h x j, G (clearTimer h x) j = G h j) :
    ∀ (fuel : Nat) (h : Heap) (id : Nat) (e : Err) (j : Nat),
      G (cancelNode fuel h id false e) j = G h j := by
  intro fuel
  induction fuel with
  | zero => intro h id e j; rfl
  | succ fuel ih =>
    intro h id e j
    cases hg : h.get? id with
    | none => rw [cancelNode_succ_none fuel h id false e hg]
    | some n =>
      cases he : n.err with
      | some e0 =>
        rw [cancelNode_succ_settled fuel h id false e n hg (by rw [he]; rfl)]
        by_cases hd : n.dl.isSome
        · rw [if_pos hd, hclr]
        · rw [if_neg hd]
      | none =>
        rw [cancelNode_succ_live fuel h id false e n hg he]
        have h2eq : G (cascadeWith (fun hh c => cancelNode fuel hh c false e)
            (setNode h id (fun m => { m with err := some e })) n.children) j = G h j := by
          refine cascadeWith_pres (P := fun hh => G hh j = G h j) _ n.children _
            (fun hh c _ hP => (ih hh c e j).trans hP) (hset h id e j)
        dsimp only
        simp only [Bool.false_eq_true, if_false]
        by_cases hd : n.dl.isSome
        · rw [if_pos hd, hclr, h2eq]
        · rw [if_neg hd, h2eq]

/-- Generic property preserved by `cancelNode`: closed under recording
an error on a still-live node, under `removeChild` and under
`clearTimer`. -/
theorem pres_cancelNode (P : Heap → Prop)
    (hset : ∀ h x e, errOf h x = none →
      P h → P (setNode h x (fun m => { m with err := some e })))
    (hrem : ∀ h p c, P h → P (removeChild h p c))
    (hclr : ∀ h x, P h → P (clearTimer h x)) :
    ∀ (fuel : Nat) (h : Heap) (id : Nat) (rfp : Bool) (e : Err),
      P h → P (cancelNode fuel h id rfp e) := by
  intro fuel
  induction fuel with
  | zero => intro h id rfp e hP; exact hP
  | succ fuel ih =>
    intro h id rfp e hP
    cases hg : h.get? id with
    | none => rw [cancelNode_succ_none fuel h id rfp e hg]; exact hP
    | some n =>
      cases he : n.err with
      | some e0 =>
        rw [cancelNode_succ_settled fuel h id rfp e n hg (by rw [he]; rfl)]
        by_cases hd : n.dl.isSome
        · rw [if_pos hd]; exact hclr h id hP
        · rw [if_neg hd]; exact hP
      | none =>
        rw [cancelNode_succ_live fuel h id rfp e n hg he]
        have hlive : errOf h id = none := by unfold errOf; rw [hg]; exact he
        have h2P : P (cascadeWith (fun hh c => cancelNode fuel hh c false e)
            (setNode h id (fun m => { m with err := some e })) n.children) := by
          refine cascadeWith_pres (P := P) _ n.children _
            (fun hh c _ hPP => ih hh c false e hPP) (hset h id e hlive hP)
        dsimp only
        by_cases hr : rfp
        · by_cases hd : n.dl.isSome
          · rw [if_pos hr, if_pos hd]; exact hclr _ id (hrem _ n.parent id h2P)
          · rw [if_pos hr, if_neg hd]; exact hrem _ n.parent id h2P
        · by_cases hd : n.dl.isSome
          · rw [if_neg hr, if_pos hd]; exact hclr _ id h2P
          · rw [if_neg hr, if_neg hd]; exact h2P

/-! ### Field preservation corollaries -/

theorem cancelNode_length (fuel : Nat) (h : Heap) (id : Nat) (rfp : Bool)
    (e : Err) : (cancelNode fuel h id rfp e).length = h.length :=
  obs_cancelNode (fun hh _ => hh.length)
    (fun h x e _ => setNode_length h x _)
    (fun h p c _ => removeChild_length h p c)
    (fun h x _ => clearTimer_length h x) fuel h id rfp e 0

theorem dlOf_cancelNode (fuel : Nat) (h : Heap) (id : Nat) (rfp : Bool)
    (e : Err) (j : Nat) : dlOf (cancelNode fuel h id rfp e) j = dlOf h j :=
  obs_cancelNode dlOf
    (fun h x e j => dlOf_setNode_of h x j _ (fun _ => rfl))
    (fun h p c j => dlOf_removeChild h p c j)
    (fun h x j => dlOf_clearTimer h x j) fuel h id rfp e j

theorem parentOf_cancelNode (fuel : Nat) (h : Heap) (id : Nat) (rfp : Bool)
    (e : Err) (j : Nat) : parentOf (cancelNode fuel h id rfp e) j = parentOf h j :=
  obs_cancelNode parentOf
    (fun h x e j => parentOf_setNode_of h x j _ (fun _ => rfl))
    (fun h p c j => parentOf_removeChild h p c j)
    (fun h x j => parentOf_clearTimer h x j) fuel h id rfp e j

theorem childrenOf_cancelNode_false (fuel : Nat) (h : Heap) (id : Nat)
    (e : Err) (j : Nat) :
    childrenOf (cancelNode fuel h id false e) j = childrenOf h j :=
  obs_cancelNode_false childrenOf
    (fun h x e j => childrenOf_setNode_of h x j _ (fun _ => rfl))
    (fun h x j => childrenOf_clearTimer h x j) fuel h id e j

theorem errOf_cancelNode_mono (fuel : Nat) (h : Heap) (id : Nat) (rfp : Bool)
    (e : Err) (j : Nat) (x : Err) (hx : errOf h j = some x) :
    errOf (cancelNode fuel h id rfp e) j = some x := by
  refine pres_cancelNode (fun hh => errOf hh j = some x) ?_ ?_ ?_ fuel h id rfp e hx
  · intro h' x' e' hlive hP
    by_cases hj : j = x'
    · subst hj; rw [hP] at hlive; cases hlive
    · unfold errOf; rw [setNode_get_other h' x' j _ hj]; exact hP
  · intro h' p c hP; rw [errOf_removeChild]; exact hP
  · intro h' x' hP; rw [errOf_clearTimer]; exact hP

theorem timerOf_cancelNode_le (fuel : Nat) (h : Heap) (id : Nat) (rfp : Bool)
    (e : Err) (j : Nat)
    (ht : timerOf (cancelNode fuel h id rfp e) j = true) : timerOf h j = true := by
  refine pres_cancelNode
    (fun hh => timerOf hh j = true → timerOf h j = true) ?_ ?_ ?_
    fuel h id rfp e (fun hx => hx) ht
  · intro h' x' e' _ hP hx
    refine hP ?_
    rw [timerOf_setNode_of h' x' j
      (fun m => { m with err := some e' }) (fun _ => rfl)] at hx
    exact hx
  · intro h' p c hP hx
    rw [timerOf_removeChild] at hx
    exact hP hx
  · intro h' x' hP hx
    exact hP (timerOf_clearTimer_le h' x' j hx)

theorem errOf_cancelNode_self (fuel : Nat) (h : Heap) (id : Nat) (rfp : Bool)
    (e : Err) (n : Node) (hg : h.get? id = some n) :
    errOf (cancelNode (fuel + 1) h id rfp e) id = some (n.err.getD e) := by
  cases he : n.err with
  | some e0 =>
    rw [cancelNode_succ_settled fuel h id rfp e n hg (by rw [he]; rfl)]
    have hh : errOf h id = some e0 := by unfold errOf; rw [hg]; exact he
    by_cases hd : n.dl.isSome
    · rw [if_pos hd, errOf_clearTimer, hh]; rfl
    · rw [if_neg hd, hh]; rfl
  | none =>
    rw [cancelNode_succ_live fuel h id rfp e n hg he]
    have h1 : errOf (setNode h id (fun m => { m with err := some e })) id = some e := by
      unfold errOf; rw [setNode_get_self, hg]; rfl
    have h2 : errOf (cascadeWith (fun hh c => cancelNode fuel hh c false e)
        (setNode h id (fun m => { m with err := some e })) n.children) id = some e := by
      refine cascadeWith_pres (P := fun hh => errOf hh id = some e) _ n.children _
        (fun hh c _ hP => errOf_cancelNode_mono fuel hh c false e id e hP) h1
    dsimp only
    by_cases hr : rfp
    · by_cases hd : n.dl.isSome
      · rw [if_pos hr, if_pos hd, errOf_clearTimer, errOf_removeChild, h2]; rfl
      · rw [if_pos hr, if_neg hd, errOf_removeChild, h2]; rfl
    · by_cases hd : n.dl.isSome
      · rw [if_neg hr, if_pos hd, errOf_clearTimer, h2]; rfl
      · rw [if_neg hr, if_neg hd, h2]; rfl

theorem timerOf_cancelNode_self_dl (fuel : Nat) (h : Heap) (id : Nat)
    (rfp : Bool) (e : Err) (n : Node) (hg : h.get? id = some n)
    (hd : n.dl.isSome = true) :
    timerOf (cancelNode (fuel + 1) h id rfp e) id = false := by
  cases he : n.err with
  | some e0 =>
    rw [cancelNode_succ_settled fuel h id rfp e n hg (by rw [he]; rfl), if_pos hd]
    exact timerOf_clearTimer_self h id
  | none =>
    rw [cancelNode_succ_live fuel h id rfp e n hg he]
    dsimp only
    rw [if_pos hd]
    exact timerOf_clearTimer_self _ id

/-! ### Reachability along the tracked-children graph -/

/-- `reachIn k h a d`: `d` is reachable from `a` in at most `k`
tracked-children steps (reflexively). -/
def reachIn : Nat → Heap → Nat → Nat → Bool
  | 0, _, a, d => a == d
  | Nat.succ k, h, a, d =>
      a == d || (childrenOf h a).any (fun c => reachIn k h c d)

/-- `d` lies in the tracked subtree rooted at `a` (including `a`). -/
def Reach (h : Heap) (a d : Nat) : Prop := ∃ k, reachIn k h a d = true

theorem reachIn_self (k : Nat) (h : Heap) (a : Nat) : reachIn k h a a = true := by
  cases k with
  | zero => simp [reachIn]
  | succ k => simp [reachIn]

theorem Reach_refl (h : Heap) (a : Nat) : Reach h a a := ⟨0, reachIn_self 0 h a⟩

theorem reachIn_mono (h : Heap) (d : Nat) :
    ∀ (k k' : Nat) (a : Nat), k ≤ k' → reachIn k h a d = true →
      reachIn k' h a d = true := by
  intro k
  induction k with
  | zero =>
    intro k' a _ hr
    have : a = d := by simpa [reachIn] using hr
    subst this
    exact reachIn_self k' h a
  | succ k ih =>
    intro k' a hk hr
    cases k' with
    | zero => exact absurd hk (by omega)
    | succ m =>
      rcases (by simpa [reachIn] using hr :
          a = d ∨ ∃ c ∈ childrenOf h a, reachIn k h c d = true) with heq | ⟨c, hc, hcr⟩
      · subst heq; exact reachIn_self (m + 1) h a
      · have : reachIn m h c d = true := ih m c (by omega) hcr
        simp only [reachIn, Bool.or_eq_true, List.any_eq_true]
        exact Or.inr ⟨c, hc, this⟩

theorem reachIn_step (h : Heap) (a c : Nat) (hc : c ∈ childrenOf h a) :
    reachIn 1 h a c = true := by
  simp only [reachIn, Bool.or_eq_true, List.any_eq_true]
  exact Or.inr ⟨c, hc, by simp⟩

theorem reachIn_trans (h : Heap) (d : Nat) :
    ∀ (k k' : Nat) (a b : Nat), reachIn k h a b = true →
      reachIn k' h b d = true → reachIn (k + k') h a d = true := by
  intro k
  induction k with
  | zero =>
    intro k' a b hab hbd
    have : a = b := by simpa [reachIn] using hab
    subst this
    simpa using hbd
  | succ k ih =>
    intro k' a b hab hbd
    rcases (by simpa [reachIn] using hab :
        a = b ∨ ∃ c ∈ childrenOf h a, reachIn k h c b = true) with heq | ⟨c, hc, hcr⟩
    · subst heq
      exact reachIn_mono h d k' (k + 1 + k') _ (by omega) hbd
    · have hstep : reachIn (k + k') h c d = true := ih k' c b hcr hbd
      have harith : k + 1 + k' = (k + k') + 1 := by omega
      rw [harith]
      simp only [reachIn, Bool.or_eq_true, List.any_eq_true]
      exact Or.inr ⟨c, hc, hstep⟩

theorem Reach_of_child (h : Heap) (a c : Nat) (hc : c ∈ childrenOf h a) :
    Reach h a c := ⟨1, reachIn_step h a c hc⟩

theorem Reach_trans (h : Heap) (a b d : Nat) (hab : Reach h a b)
    (hbd : Reach h b d) : Reach h a d := by
  rcases hab with ⟨k, hk⟩
  rcases hbd with ⟨k', hk'⟩
  exact ⟨k + k', reachIn_trans h d k k' a b hk hk'⟩

theorem Reach_snoc (h : Heap) (a j c : Nat) (hj : Reach h a j)
    (hc : c ∈ childrenOf h j) : Reach h a c :=
  Reach_trans h a j c hj (Reach_of_child h j c hc)

theorem reachIn_congr (h h' : Heap)
    (hch : ∀ x, childrenOf h' x = childrenOf h x) :
    ∀ (k : Nat) (a d : Nat), reachIn k h' a d = reachIn k h a d := by
  intro k
  induction k with
  | zero => intro a d; rfl
  | succ k ih =>
    intro a d
    simp only [reachIn, hch]
    congr 1
    exact congrArg (childrenOf h a).any (funext fun c => ih c d)

theorem Reach_congr (h h' : Heap)
    (hch : ∀ x, childrenOf h' x = childrenOf h x) (a d : Nat) :
    Reach h' a d ↔ Reach h a d := by
  constructor
  · rintro ⟨k, hk⟩; exact ⟨k, by rw [← reachIn_congr h h' hch k a d]; exact hk⟩
  · rintro ⟨k, hk⟩; exact ⟨k, by rw [reachIn_congr h h' hch k a d]; exact hk⟩

theorem Reach_head (h : Heap) (a d : Nat) (hr : Reach h a d) :
    a = d ∨ ∃ c ∈ childrenOf h a, Reach h c d := by
  rcases hr with ⟨k, hk⟩
  cases k with
  | zero => exact Or.inl (by simpa [reachIn] using hk)
  | succ k =>
    rcases (by simpa [reachIn] using hk :
        a = d ∨ ∃ c ∈ childrenOf h a, reachIn k h c d = true) with heq | ⟨c, hc, hcr⟩
    · exact Or.inl heq
    · exact Or.inr ⟨c, hc, ⟨k, hcr⟩⟩

theorem reachIn_last (h : Heap) (d : Nat) :
    ∀ (k : Nat) (a : Nat), reachIn k h a d = true → d ≠ a →
      ∃ x, Reach h a x ∧ d ∈ childrenOf h x := by
  intro k
  induction k with
  | zero =>
    intro a hr hne
    exact absurd (by simpa [reachIn] using hr : a = d) (fun he => hne he.symm)
  | succ k ih =>
    intro a hr hne
    rcases (by simpa [reachIn] using hr :
        a = d ∨ ∃ c ∈ childrenOf h a, reachIn k h c d = true) with heq | ⟨c, hc, hcr⟩
    · exact absurd heq (fun he => hne he.symm)
    · by_cases hdc : d = c
      · subst hdc; exact ⟨a, Reach_refl h a, hc⟩
      · rcases ih c hcr hdc with ⟨x, hcx, hdx⟩
        exact ⟨x, Reach_trans h a c x (Reach_of_child h a c hc) hcx, hdx⟩

theorem Reach_last (h : Heap) (a d : Nat) (hr : Reach h a d) (hne : d ≠ a) :
    ∃ x, Reach h a x ∧ d ∈ childrenOf h x := by
  rcases hr with ⟨k, hk⟩
  exact reachIn_last h d k a hk hne

/-! ### The structural well-formedness invariant

Every reachable heap of the source satisfies it: a registered child was
allocated after (hence has a larger index than) the node tracking it,
its `parent` reference is exactly that node, and a node's `parent`
reference points below it. -/

/-- Structural well-formedness at one node. -/
def nodeOK (h : Heap) (a : Nat) : Bool :=
  (match parentOf h a with
   | some (Ctx.node p) => decide (p < a)
   | _ => true) &&
  (childrenOf h a).all (fun c =>
    decide (a < c) && decide (c < h.length) &&
    decide (parentOf h c = some (Ctx.node a)))

/-- Structural well-formedness of the whole heap. -/
def structOK (h : Heap) : Bool :=
  (List.range h.length).all (fun a => nodeOK h a)

theorem get_isSome_of_children_mem (h : Heap) (a c : Nat)
    (hc : c ∈ childrenOf h a) : a < h.length := by
  by_contra hlt
  have : h.get? a = none := List.get?_eq_none.mpr (by omega)
  unfold childrenOf at hc
  rw [this] at hc
  cases hc

theorem structOK_node (h : Heap) (a : Nat) (hs : structOK h = true)
    (ha : a < h.length) : nodeOK h a = true := by
  unfold structOK at hs
  rw [List.all_eq_true] at hs
  exact hs a (List.mem_range.mpr ha)

theorem structOK_child (h : Heap) (a c : Nat) (hs : structOK h = true)
    (hc : c ∈ childrenOf h a) :
    a < c ∧ c < h.length ∧ parentOf h c = some (Ctx.node a) := by
  have ha : a < h.length := get_isSome_of_children_mem h a c hc
  have hn := structOK_node h a hs ha
  unfold nodeOK at hn
  rw [Bool.and_eq_true] at hn
  rcases hn with ⟨_, hn⟩
  rw [List.all_eq_true] at hn
  have := hn c hc
  rw [Bool.and_eq_true, Bool.and_eq_true] at this
  rcases this with ⟨⟨h1, h2⟩, h3⟩
  exact ⟨of_decide_eq_true h1, of_decide_eq_true h2, of_decide_eq_true h3⟩

theorem structOK_parent (h : Heap) (a p : Nat) (hs : structOK h = true)
    (hp : parentOf h a = some (Ctx.node p)) : p < a := by
  have ha : a < h.length := by
    by_contra hlt
    have : h.get? a = none := List.get?_eq_none.mpr (by omega)
    unfold parentOf at hp
    rw [this] at hp
    cases hp
  have hn := structOK_node h a hs ha
  unfold nodeOK at hn
  rw [Bool.and_eq_true] at hn
  rcases hn with ⟨hn, _⟩
  rw [hp] at hn
  exact of_decide_eq_true hn

theorem reach_le (h : Heap) (hs : structOK h = true) (d : Nat) :
    ∀ (k : Nat) (a : Nat), reachIn k h a d = true → a ≤ d := by
  intro k
  induction k with
  | zero => intro a hr; exact Nat.le_of_eq (by simpa [reachIn] using hr)
  | succ k ih =>
    intro a hr
    rcases (by simpa [reachIn] using hr :
        a = d ∨ ∃ c ∈ childrenOf h a, reachIn k h c d = true) with heq | ⟨c, hc, hcr⟩
    · exact Nat.le_of_eq heq
    · have hac : a < c := (structOK_child h a c hs hc).1
      exact Nat.le_trans (Nat.le_of_lt hac) (ih c hcr)

theorem reach_lt_length (h : Heap) (hs : structOK h = true) (d : Nat) :
    ∀ (k : Nat) (a : Nat), reachIn k h a d = true → d = a ∨ d < h.length := by
  intro k
  induction k with
  | zero =>
    intro a hr
    have had : a = d := by simpa [reachIn] using hr
    exact Or.inl had.symm
  | succ k ih =>
    intro a hr
    rcases (by simpa [reachIn] using hr :
        a = d ∨ ∃ c ∈ childrenOf h a, reachIn k h c d = true) with heq | ⟨c, hc, hcr⟩
    · exact Or.inl heq.symm
    · rcases ih c hcr with heq | hlt
      · subst heq; exact Or.inr (structOK_child h a d hs hc).2.1
      · exact Or.inr hlt

theorem reach_shorten (h : Heap) (hs : structOK h = true) (d : Nat) :
    ∀ (k : Nat) (a : Nat), reachIn k h a d = true →
      reachIn (d - a) h a d = true := by
  intro k
  induction k with
  | zero =>
    intro a hr
    have : a = d := by simpa [reachIn] using hr
    subst this
    simpa using reachIn_self _ h a
  | succ k ih =>
    intro a hr
    rcases (by simpa [reachIn] using hr :
        a = d ∨ ∃ c ∈ childrenOf h a, reachIn k h c d = true) with heq | ⟨c, hc, hcr⟩
    · subst heq; simpa using reachIn_self _ h a
    · have hac : a < c := (structOK_child h a c hs hc).1
      have hcd : c ≤ d := reach_le h hs d k c hcr
      have hshort : reachIn (d - c) h c d = true := ih c hcr
      have hda : d - a = (d - a - 1) + 1 := by omega
      rw [hda]
      simp only [reachIn, Bool.or_eq_true, List.any_eq_true]
      exact Or.inr ⟨c, hc,
        reachIn_mono h d (d - c) (d - a - 1) c (by omega) hshort⟩

theorem Reach_iff_reachIn_length (h : Heap) (hs : structOK h = true)
    (a d : Nat) : Reach h a d ↔ reachIn h.length h a d = true := by
  constructor
  · rintro ⟨k, hk⟩
    have hshort := reach_shorten h hs d k a hk
    rcases reach_lt_length h hs d k a hk with heq | hlt
    · subst heq; exact reachIn_self _ h d
    · exact reachIn_mono h d (d - a) h.length a (by omega) hshort
  · intro hr; exact ⟨h.length, hr⟩

theorem nodeOK_congr (h h' : Heap) (hlen : h'.length = h.length)
    (hpar : ∀ j, parentOf h' j = parentOf h j)
    (hch : ∀ j, childrenOf h' j = childrenOf h j) (a : Nat) :
    nodeOK h' a = nodeOK h a := by
  unfold nodeOK
  simp only [hlen, hpar, hch]

theorem structOK_congr (h h' : Heap) (hlen : h'.length = h.length)
    (hpar : ∀ j, parentOf h' j = parentOf h j)
    (hch : ∀ j, childrenOf h' j = childrenOf h j) :
    structOK h' = structOK h := by
  unfold structOK
  rw [hlen]
  exact congrArg (List.range h.length).all
    (funext fun a => nodeOK_congr h h' hlen hpar hch a)

/-! ### Characterization of a cancel cascade

`subok h id e` is the precondition under which cancelling `id` with
reason `e` settles exactly the tracked subtree of `id` with `e`: every
node of that subtree is either still live, or already carries `e` with
its own children already settled with `e` (the state a partially
finished cascade of the same reason leaves behind). -/

def subok (h : Heap) (id : Nat) (e : Err) : Prop :=
  ∀ j, Reach h id j →
    errOf h j = none ∨
      (errOf h j = some e ∧ ∀ c ∈ childrenOf h j, errOf h c = some e)

theorem subok_settled_all (h : Heap) (id : Nat) (e : Err)
    (hsk : subok h id e) (hid : errOf h id = some e) :
    ∀ j, Reach h id j → errOf h j = some e := by
  have aux : ∀ (k : Nat) (a j : Nat), Reach h id a → errOf h a = some e →
      reachIn k h a j = true → errOf h j = some e := by
    intro k
    induction k with
    | zero =>
      intro a j _ ha hr
      have : a = j := by simpa [reachIn] using hr
      subst this; exact ha
    | succ k ih =>
      intro a j hia ha hr
      rcases (by simpa [reachIn] using hr :
          a = j ∨ ∃ c ∈ childrenOf h a, reachIn k h c j = true) with heq | ⟨c, hc, hcr⟩
      · subst heq; exact ha
      · rcases hsk a hia with h1 | ⟨_, h2⟩
        · rw [ha] at h1; cases h1
        · exact ih c j (Reach_snoc h id a c hia hc) (h2 c hc) hcr
  intro j hr
  rcases hr with ⟨k, hk⟩
  exact aux k id j (Reach_refl h id) hid hk

theorem cascade_charac (fuel : Nat)
    (ih : ∀ (h : Heap) (id : Nat) (rfp : Bool) (e : Err),
        structOK h = true → subok h id e →
        h.length - id < fuel → id < h.length →
        ∀ j, (Reach h id j → errOf (cancelNode fuel h id rfp e) j = some e) ∧
             (¬ Reach h id j → errOf (cancelNode fuel h id rfp e) j = errOf h j)) :
    ∀ (cs : List Nat) (A : Nat → Prop) (h hh : Heap) (e : Err),
      structOK h = true →
      hh.length = h.length →
      (∀ x, childrenOf hh x = childrenOf h x) →
      (∀ x, parentOf hh x = parentOf h x) →
      (∀ j, A j → errOf hh j = some e) →
      (∀ j, ¬ A j → errOf hh j = errOf h j) →
      (∀ j, A j → (∀ c ∈ childrenOf h j, A c) ∨ (∀ c ∈ cs, ¬ Reach h c j)) →
      (∀ c ∈ cs, c < h.length ∧ subok h c e) →
      (∀ c ∈ cs, h.length - c < fuel) →
      ∀ j,
        ((A j ∨ ∃ c ∈ cs, Reach h c j) →
          errOf (cascadeWith (fun h2 c => cancelNode fuel h2 c false e) hh cs) j = some e) ∧
        ((¬ A j ∧ ∀ c ∈ cs, ¬ Reach h c j) →
          errOf (cascadeWith (fun h2 c => cancelNode fuel h2 c false e) hh cs) j = errOf h j) := by
  intro cs
  induction cs with
  | nil =>
    intro A h hh e _ _ _ _ hA hnA _ _ _ j
    constructor
    · rintro (hAj | ⟨c, hc, _⟩)
      · exact hA j hAj
      · cases hc
    · rintro ⟨hnAj, _⟩
      exact hnA j hnAj
  | cons c0 cs ihcs =>
    intro A h hh e hs hlen hch hpar hA hnA hdown hsubs hfuel j
    have hc0mem : c0 ∈ c0 :: cs := List.mem_cons_self _ _
    have hc0 := hsubs c0 hc0mem
    have hreach_iff : ∀ a d, Reach hh a d ↔ Reach h a d :=
      fun a d => Reach_congr h hh hch a d
    have hs_hh : structOK hh = true := by
      rw [structOK_congr h hh hlen hpar hch]; exact hs
    have hsub_hh : subok hh c0 e := by
      intro x hx
      have hxh : Reach h c0 x := (hreach_iff c0 x).mp hx
      by_cases hAx : A x
      · refine Or.inr ⟨hA x hAx, ?_⟩
        intro c' hc'
        rw [hch x] at hc'
        rcases hdown x hAx with hdn | hno
        · exact hA c' (hdn c' hc')
        · exact absurd hxh (hno c0 hc0mem)
      · rcases hc0.2 x hxh with hnone | ⟨hsome, hkids⟩
        · exact Or.inl (by rw [hnA x hAx]; exact hnone)
        · refine Or.inr ⟨by rw [hnA x hAx]; exact hsome, ?_⟩
          intro c' hc'
          rw [hch x] at hc'
          by_cases hAc' : A c'
          · exact hA c' hAc'
          · rw [hnA c' hAc']; exact hkids c' hc'
    have hih := ih hh c0 false e hs_hh hsub_hh
      (by rw [hlen]; exact hfuel c0 hc0mem) (by rw [hlen]; exact hc0.1)
    have hlen' : (cancelNode fuel hh c0 false e).length = h.length := by
      rw [cancelNode_length]; exact hlen
    have hch' : ∀ x, childrenOf (cancelNode fuel hh c0 false e) x = childrenOf h x :=
      fun x => by rw [childrenOf_cancelNode_false]; exact hch x
    have hpar' : ∀ x, parentOf (cancelNode fuel hh c0 false e) x = parentOf h x :=
      fun x => by rw [parentOf_cancelNode]; exact hpar x
    have hA' : ∀ x, (A x ∨ Reach h c0 x) →
        errOf (cancelNode fuel hh c0 false e) x = some e := by
      rintro x (hAx | hrx)
      · exact errOf_cancelNode_mono fuel hh c0 false e x e (hA x hAx)
      · exact (hih x).1 ((hreach_iff c0 x).mpr hrx)
    have hnA' : ∀ x, ¬ (A x ∨ Reach h c0 x) →
        errOf (cancelNode fuel hh c0 false e) x = errOf h x := by
      intro x hnx
      push_neg at hnx
      have := (hih x).2 (fun hr => hnx.2 ((hreach_iff c0 x).mp hr))
      rw [this]
      exact hnA x hnx.1
    have hdown' : ∀ x, (A x ∨ Reach h c0 x) →
        (∀ c ∈ childrenOf h x, (A c ∨ Reach h c0 c)) ∨ (∀ c ∈ cs, ¬ Reach h c x) := by
      rintro x (hAx | hrx)
      · rcases hdown x hAx with hdn | hno
        · exact Or.inl (fun c hc => Or.inl (hdn c hc))
        · exact Or.inr (fun c hc => hno c (List.mem_cons_of_mem _ hc))
      · exact Or.inl (fun c hc => Or.inr (Reach_snoc h c0 x c hrx hc))
    have hrec := ihcs (fun x => A x ∨ Reach h c0 x) h
      (cancelNode fuel hh c0 false e) e hs hlen' hch' hpar' hA' hnA' hdown'
      (fun c hc => hsubs c (List.mem_cons_of_mem _ hc))
      (fun c hc => hfuel c (List.mem_cons_of_mem _ hc)) j
    constructor
    · rintro (hAj | ⟨c, hc, hrc⟩)
      · exact hrec.1 (Or.inl (Or.inl hAj))
      · rcases List.mem_cons.mp hc with rfl | hc'
        · exact hrec.1 (Or.inl (Or.inr hrc))
        · exact hrec.1 (Or.inr ⟨c, hc', hrc⟩)
    · rintro ⟨hnAj, hnr⟩
      refine hrec.2 ⟨?_, ?_⟩
      · rintro (hAj | hrj)
        · exact hnAj hAj
        · exact hnr c0 hc0mem hrj
      · exact fun c hc => hnr c (List.mem_cons_of_mem _ hc)

/-- The central characterization: under `subok`, cancelling node `id`
settles exactly the tracked subtree of `id` with the given reason and
leaves every other node's error untouched. -/
theorem cancel_charac : ∀ (fuel : Nat) (h : Heap) (id : Nat) (rfp : Bool) (e : Err),
    structOK h = true → subok h id e →
    h.length - id < fuel → id < h.length →
    ∀ j, (Reach h id j → errOf (cancelNode fuel h id rfp e) j = some e) ∧
         (¬ Reach h id j → errOf (cancelNode fuel h id rfp e) j = errOf h j) := by
  intro fuel
  induction fuel with
  | zero =>
    intro h id rfp e _ _ hf hid
    omega
  | succ fuel ih =>
    intro h id rfp e hs hsk hf hid j
    have hgex : ∃ n, h.get? id = some n := by
      cases hgg : h.get? id with
      | none => exact absurd (List.get?_eq_none.mp hgg) (by omega)
      | some n => exact ⟨n, rfl⟩
    obtain ⟨n, hg⟩ := hgex
    cases he : n.err with
    | some e0 =>
      have herr : errOf h id = some e0 := by unfold errOf; rw [hg]; exact he
      rcases hsk id (Reach_refl h id) with h1 | ⟨h1, _⟩
      · rw [herr] at h1; cases h1
      · have hall := subok_settled_all h id e hsk h1
        rw [cancelNode_succ_settled fuel h id rfp e n hg (by rw [he]; rfl)]
        constructor
        · intro hr
          by_cases hd : n.dl.isSome
          · rw [if_pos hd, errOf_clearTimer]; exact hall j hr
          · rw [if_neg hd]; exact hall j hr
        · intro _
          by_cases hd : n.dl.isSome
          · rw [if_pos hd, errOf_clearTimer]
          · rw [if_neg hd]
    | none =>
      rw [cancelNode_succ_live fuel h id rfp e n hg he]
      have hchid : n.children = childrenOf h id := by
        unfold childrenOf; rw [hg]
      have hlen1 : (setNode h id (fun m => { m with err := some e })).length = h.length :=
        setNode_length h id _
      have hch1 : ∀ x, childrenOf (setNode h id (fun m => { m with err := some e })) x =
          childrenOf h x :=
        fun x => childrenOf_setNode_of h id x _ (fun _ => rfl)
      have hpar1 : ∀ x, parentOf (setNode h id (fun m => { m with err := some e })) x =
          parentOf h x :=
        fun x => parentOf_setNode_of h id x _ (fun _ => rfl)
      have hA1 : ∀ x, x = id →
          errOf (setNode h id (fun m => { m with err := some e })) x = some e := by
        intro x hx; subst hx
        unfold errOf; rw [setNode_get_self, hg]; rfl
      have hnA1 : ∀ x, ¬ x = id →
          errOf (setNode h id (fun m => { m with err := some e })) x = errOf h x := by
        intro x hx
        unfold errOf; rw [setNode_get_other h id x _ hx]
      have hdown1 : ∀ x, x = id →
          (∀ c ∈ childrenOf h x, c = id) ∨ (∀ c ∈ n.children, ¬ Reach h c x) := by
        intro x hx; rw [hx]
        refine Or.inr ?_
        intro c hc hrc
        rw [hchid] at hc
        have hlt : id < c := (structOK_child h id c hs hc).1
        rcases hrc with ⟨k, hk⟩
        have := reach_le h hs id k c hk
        omega
      have hsubs1 : ∀ c ∈ n.children, c < h.length ∧ subok h c e := by
        intro c hc
        rw [hchid] at hc
        refine ⟨(structOK_child h id c hs hc).2.1, ?_⟩
        intro x hx
        exact hsk x (Reach_trans h id c x (Reach_of_child h id c hc) hx)
      have hfuel1 : ∀ c ∈ n.children, h.length - c < fuel := by
        intro c hc
        rw [hchid] at hc
        have := (structOK_child h id c hs hc).1
        omega
      have hcc := cascade_charac fuel ih n.children (fun x => x = id) h
        (setNode h id (fun m => { m with err := some e })) e hs hlen1 hch1 hpar1
        hA1 hnA1 hdown1 hsubs1 hfuel1 j
      have hbridge : Reach h id j ↔ (j = id ∨ ∃ c ∈ childrenOf h id, Reach h c j) := by
        constructor
        · intro hr
          rcases Reach_head h id j hr with heq | ⟨c, hc, hcr⟩
          · exact Or.inl heq.symm
          · exact Or.inr ⟨c, hc, hcr⟩
        · rintro (rfl | ⟨c, hc, hcr⟩)
          · exact Reach_refl h j
          · exact Reach_trans h id c j (Reach_of_child h id c hc) hcr
      dsimp only
      constructor
      · intro hr
        have h2e : errOf (cascadeWith (fun h2 c => cancelNode fuel h2 c false e)
            (setNode h id (fun m => { m with err := some e })) n.children) j = some e := by
          refine hcc.1 ?_
          rcases hbridge.mp hr with heq | ⟨c, hc, hcr⟩
          · exact Or.inl heq
          · rw [← hchid] at hc
            exact Or.inr ⟨c, hc, hcr⟩
        by_cases hrt : rfp
        · by_cases hd : n.dl.isSome
          · rw [if_pos hrt, if_pos hd, errOf_clearTimer, errOf_removeChild]; exact h2e
          · rw [if_pos hrt, if_neg hd, errOf_removeChild]; exact h2e
        · by_cases hd : n.dl.isSome
          · rw [if_neg hrt, if_pos hd, errOf_clearTimer]; exact h2e
          · rw [if_neg hrt, if_neg hd]; exact h2e
      · intro hnr
        have h2e : errOf (cascadeWith (fun h2 c => cancelNode fuel h2 c false e)
            (setNode h id (fun m => { m with err := some e })) n.children) j = errOf h j := by
          refine hcc.2 ⟨?_, ?_⟩
          · intro heq; exact hnr (hbridge.mpr (Or.inl heq))
          · intro c hc hcr
            rw [hchid] at hc
            exact hnr (hbridge.mpr (Or.inr ⟨c, hc, hcr⟩))
        by_cases hrt : rfp
        · by_cases hd : n.dl.isSome
          · rw [if_pos hrt, if_pos hd, errOf_clearTimer, errOf_removeChild]; exact h2e
          · rw [if_pos hrt, if_neg hd, errOf_removeChild]; exact h2e
        · by_cases hd : n.dl.isSome
          · rw [if_neg hrt, if_pos hd, errOf_clearTimer]; exact h2e
          · rw [if_neg hrt, if_neg hd]; exact h2e

/-! ### Timer-handle invariant

`DLok`: a plain `CancelCtx` never carries a pending timer handle.
`ECok`: a settled node never carries a pending timer handle (the claim
of C7).  Both are preserved by every operation. -/

def DLok (h : Heap) : Prop := ∀ j, dlOf h j = none → timerOf h j = false

def ECok (h : Heap) : Prop := ∀ j, (errOf h j).isSome = true → timerOf h j = false

theorem timerOf_clearTimer_other (h : Heap) (id j : Nat) (hj : j ≠ id) :
    timerOf (clearTimer h id) j = timerOf h j := by
  unfold clearTimer
  cases hg : h.get? id with
  | none => rfl
  | some n =>
    dsimp only
    by_cases ht : n.timer
    · rw [if_pos ht]
      unfold timerOf
      rw [setNode_get_other h id j _ hj]
    · rw [if_neg ht]

theorem DLok_cancelNode (fuel : Nat) (h : Heap) (id : Nat) (rfp : Bool)
    (e : Err) (hdl : DLok h) : DLok (cancelNode fuel h id rfp e) := by
  intro j hd
  rw [dlOf_cancelNode] at hd
  cases htA : timerOf (cancelNode fuel h id rfp e) j with
  | false => rfl
  | true =>
    have := timerOf_cancelNode_le fuel h id rfp e j htA
    rw [hdl j hd] at this
    cases this

theorem timerOf_cascade_le (fuel : Nat) (e : Err) (j : Nat) :
    ∀ (cs : List Nat) (hh : Heap),
      timerOf (cascadeWith (fun h2 c => cancelNode fuel h2 c false e) hh cs) j = true →
      timerOf hh j = true := by
  intro cs
  induction cs with
  | nil => intro hh ht; exact ht
  | cons c cs ih =>
    intro hh ht
    exact timerOf_cancelNode_le fuel hh c false e j (ih _ ht)

theorem cascade_timer_fresh (fuel : Nat)
    (ihT : ∀ (h : Heap) (id : Nat) (rfp : Bool) (e : Err), DLok h →
      ∀ j, errOf h j = none →
        (errOf (cancelNode fuel h id rfp e) j).isSome = true →
        timerOf (cancelNode fuel h id rfp e) j = false) :
    ∀ (cs : List Nat) (hh : Heap) (e : Err) (j : Nat), DLok hh → errOf hh j = none →
      (errOf (cascadeWith (fun h2 c => cancelNode fuel h2 c false e) hh cs) j).isSome = true →
      timerOf (cascadeWith (fun h2 c => cancelNode fuel h2 c false e) hh cs) j = false := by
  intro cs
  induction cs with
  | nil =>
    intro hh e j _ hnone hsome
    unfold cascadeWith at hsome
    rw [hnone] at hsome
    cases hsome
  | cons c cs ih =>
    intro hh e j hdl hnone hsome
    cases hx : errOf (cancelNode fuel hh c false e) j with
    | none =>
      exact ih (cancelNode fuel hh c false e) e j
        (DLok_cancelNode fuel hh c false e hdl) hx hsome
    | some x =>
      have htx : timerOf (cancelNode fuel hh c false e) j = false :=
        ihT hh c false e hdl j hnone (by rw [hx]; rfl)
      cases htF : timerOf (cascadeWith (fun h2 c => cancelNode fuel h2 c false e)
          (cancelNode fuel hh c false e) cs) j with
      | false => exact htF
      | true =>
        have := timerOf_cascade_le fuel e j cs _ htF
        rw [htx] at this
        cases this

theorem timer_fresh_settle : ∀ (fuel : Nat) (h : Heap) (id : Nat) (rfp : Bool)
    (e : Err), DLok h → ∀ j, errOf h j = none →
      (errOf (cancelNode fuel h id rfp e) j).isSome = true →
      timerOf (cancelNode fuel h id rfp e) j = false := by
  intro fuel
  induction fuel with
  | zero =>
    intro h id rfp e _ j hnone hsome
    simp only [cancelNode] at hsome
    rw [hnone] at hsome
    cases hsome
  | succ fuel ih =>
    intro h id rfp e hdl j hnone hsome
    cases hg : h.get? id with
    | none =>
      rw [cancelNode_succ_none fuel h id rfp e hg] at hsome ⊢
      rw [hnone] at hsome
      cases hsome
    | some n =>
      cases he : n.err with
      | some e0 =>
        rw [cancelNode_succ_settled fuel h id rfp e n hg (by rw [he]; rfl)] at hsome ⊢
        by_cases hd : n.dl.isSome
        · rw [if_pos hd] at hsome ⊢
          rw [errOf_clearTimer, hnone] at hsome
          cases hsome
        · rw [if_neg hd] at hsome ⊢
          rw [hnone] at hsome
          cases hsome
      | none =>
        rw [cancelNode_succ_live fuel h id rfp e n hg he] at hsome ⊢
        dsimp only at hsome ⊢
        have hdl1 : DLok (setNode h id (fun m => { m with err := some e })) := by
          intro x hx
          rw [dlOf_setNode_of h id x (fun m => { m with err := some e }) (fun _ => rfl)] at hx
          rw [timerOf_setNode_of h id x (fun m => { m with err := some e }) (fun _ => rfl)]
          exact hdl x hx
        by_cases hj : j = id
        · subst hj
          by_cases hd : n.dl.isSome
          · rw [if_pos hd] at hsome ⊢
            exact timerOf_clearTimer_self _ j
          · -- plain CancelCtx: its timer was already clear (DLok) and stays clear
            rw [if_neg hd] at hsome ⊢
            have hdlj : dlOf h j = none := by
              unfold dlOf
              rw [hg]
              cases hdn : n.dl with
              | none => exact hdn
              | some d => rw [hdn] at hd; exact absurd rfl hd
            have htj : timerOf h j = false := hdl j hdlj
            have ht1 : timerOf (setNode h j (fun m => { m with err := some e })) j = false := by
              rw [timerOf_setNode_of h j j (fun m => { m with err := some e }) (fun _ => rfl)]
              exact htj
            by_cases hrt : rfp
            · rw [if_pos hrt, timerOf_removeChild]
              cases ht2 : timerOf (cascadeWith (fun h2 c => cancelNode fuel h2 c false e)
                  (setNode h j (fun m => { m with err := some e })) n.children) j with
              | false => rfl
              | true =>
                have := timerOf_cascade_le fuel e j n.children _ ht2
                rw [ht1] at this
                cases this
            · rw [if_neg hrt]
              cases ht2 : timerOf (cascadeWith (fun h2 c => cancelNode fuel h2 c false e)
                  (setNode h j (fun m => { m with err := some e })) n.children) j with
              | false => rfl
              | true =>
                have := timerOf_cascade_le fuel e j n.children _ ht2
                rw [ht1] at this
                cases this
        · -- j was settled by the cascade
          have hnone1 : errOf (setNode h id (fun m => { m with err := some e })) j = none := by
            unfold errOf
            rw [setNode_get_other h id j _ hj]
            exact hnone
          have hkey : (errOf (cascadeWith (fun h2 c => cancelNode fuel h2 c false e)
              (setNode h id (fun m => { m with err := some e })) n.children) j).isSome = true := by
            by_cases hrt : rfp
            · by_cases hd : n.dl.isSome
              · rw [if_pos hrt, if_pos hd, errOf_clearTimer, errOf_removeChild] at hsome
                exact hsome
              · rw [if_pos hrt, if_neg hd, errOf_removeChild] at hsome
                exact hsome
            · by_cases hd : n.dl.isSome
              · rw [if_neg hrt, if_pos hd, errOf_clearTimer] at hsome
                exact hsome
              · rw [if_neg hrt, if_neg hd] at hsome
                exact hsome
          have ht2 : timerOf (cascadeWith (fun h2 c => cancelNode fuel h2 c false e)
              (setNode h id (fun m => { m with err := some e })) n.children) j = false :=
            cascade_timer_fresh fuel ih n.children _ e j hdl1 hnone1 hkey
          by_cases hrt : rfp
          · by_cases hd : n.dl.isSome
            · rw [if_pos hrt, if_pos hd, timerOf_clearTimer_other _ id j hj, timerOf_removeChild]
              exact ht2
            · rw [if_pos hrt, if_neg hd, timerOf_removeChild]
              exact ht2
          · by_cases hd : n.dl.isSome
            · rw [if_neg hrt, if_pos hd, timerOf_clearTimer_other _ id j hj]
              exact ht2
            · rw [if_neg hrt, if_neg hd]
              exact ht2

theorem ECok_cancelNode (fuel : Nat) (h : Heap) (id : Nat) (rfp : Bool)
    (e : Err) (hec : ECok h) (hdl : DLok h) :
    ECok (cancelNode fuel h id rfp e) := by
  intro j hsome
  cases hx : errOf h j with
  | some x =>
    have := hec j (by rw [hx]; rfl)
    cases htA : timerOf (cancelNode fuel h id rfp e) j with
    | false => rfl
    | true =>
      have hle := timerOf_cancelNode_le fuel h id rfp e j htA
      rw [this] at hle
      cases hle
  | none => exact timer_fresh_settle fuel h id rfp e hdl j hx hsome

/-! ### Allocation (append) lemmas -/

theorem get_append_lt (h : Heap) (n : Node) (j : Nat) (hj : j < h.length) :
    (h ++ [n]).get? j = h.get? j :=
  List.get?_append hj

theorem get_append_self (h : Heap) (n : Node) :
    (h ++ [n]).get? h.length = some n :=
  List.get?_concat_length h n

theorem get_append_gt (h : Heap) (n : Node) (j : Nat) (hj : h.length < j) :
    (h ++ [n]).get? j = none := by
  refine List.get?_eq_none.mpr ?_
  rw [List.length_append]
  simp only [List.length_cons, List.length_nil]
  omega

theorem errOf_some_lt (h : Heap) (j : Nat) (e : Err)
    (hx : errOf h j = some e) : j < h.length := by
  by_contra hlt
  unfold errOf at hx
  rw [List.get?_eq_none.mpr (by omega)] at hx
  cases hx

/-! ### The timer invariant is preserved by every operation -/

/-- The two timer-related invariants of a state: no plain `CancelCtx`
carries a timer handle, and no settled node carries a timer handle. -/
def tinv (s : State) : Prop := ECok s.heap ∧ DLok s.heap

theorem tinv_cancelWrap (s : State) (id : Nat) (rfp : Bool) (e : Err)
    (ht : tinv s) : tinv (cancelWrap s id rfp e) :=
  ⟨ECok_cancelNode _ _ _ _ _ ht.1 ht.2, DLok_cancelNode _ _ _ _ _ ht.2⟩

theorem ECok_setNode_obs (h : Heap) (x : Nat) (f : Node → Node)
    (hfe : ∀ m, (f m).err = m.err) (hft : ∀ m, (f m).timer = m.timer)
    (hec : ECok h) : ECok (setNode h x f) := by
  intro j hj
  rw [errOf_setNode_of h x j f hfe] at hj
  rw [timerOf_setNode_of h x j f hft]
  exact hec j hj

theorem DLok_setNode_obs (h : Heap) (x : Nat) (f : Node → Node)
    (hfd : ∀ m, (f m).dl = m.dl) (hft : ∀ m, (f m).timer = m.timer)
    (hdl : DLok h) : DLok (setNode h x f) := by
  intro j hj
  rw [dlOf_setNode_of h x j f hfd] at hj
  rw [timerOf_setNode_of h x j f hft]
  exact hdl j hj

theorem tinv_propagateCancel (s : State) (p : Ctx) (cid : Nat)
    (ht : tinv s) : tinv (propagateCancel s p cid) := by
  unfold propagateCancel
  cases p with
  | background => exact ht
  | node pid =>
    dsimp only
    cases hg : s.heap.get? pid with
    | none => exact ht
    | some pn =>
      dsimp only
      cases he : pn.err with
      | some e => exact tinv_cancelWrap s cid false e ht
      | none =>
        refine ⟨ECok_setNode_obs _ _ _ (fun _ => rfl) (fun _ => rfl) ht.1,
                DLok_setNode_obs _ _ _ (fun _ => rfl) (fun _ => rfl) ht.2⟩

theorem ECok_append (h : Heap) (n : Node)
    (hn : n.err.isSome = true → n.timer = false) (hec : ECok h) :
    ECok (h ++ [n]) := by
  intro j hj
  rcases Nat.lt_trichotomy j h.length with hlt | heq | hgt
  · unfold errOf at hj
    unfold timerOf
    rw [get_append_lt h n j hlt] at hj ⊢
    exact hec j hj
  · subst heq
    unfold errOf at hj
    unfold timerOf
    rw [get_append_self h n] at hj ⊢
    exact hn hj
  · unfold errOf at hj
    rw [get_append_gt h n j hgt] at hj
    cases hj

theorem DLok_append (h : Heap) (n : Node)
    (hn : n.dl = none → n.timer = false) (hdl : DLok h) :
    DLok (h ++ [n]) := by
  intro j hj
  rcases Nat.lt_trichotomy j h.length with hlt | heq | hgt
  · unfold dlOf at hj
    unfold timerOf
    rw [get_append_lt h n j hlt] at hj ⊢
    exact hdl j hj
  · subst heq
    unfold dlOf at hj
    unfold timerOf
    rw [get_append_self h n] at hj ⊢
    exact hn hj
  · unfold timerOf
    rw [get_append_gt h n j hgt]

theorem tinv_withCancel (s : State) (p : Ctx) (ht : tinv s) :
    tinv (withCancel s p).1 := by
  unfold withCancel
  refine tinv_propagateCancel _ p _ ⟨?_, ?_⟩
  · exact ECok_append s.heap _ (fun hx => by cases hx) ht.1
  · exact DLok_append s.heap _ (fun _ => rfl) ht.2

theorem dlOf_propagateCancel (s : State) (p : Ctx) (cid j : Nat) :
    dlOf (propagateCancel s p cid).heap j = dlOf s.heap j := by
  unfold propagateCancel
  cases p with
  | background => rfl
  | node pid =>
    dsimp only
    cases hg : s.heap.get? pid with
    | none => rfl
    | some pn =>
      dsimp only
      cases he : pn.err with
      | some e => exact dlOf_cancelNode _ _ _ _ _ _
      | none => exact dlOf_setNode_of _ _ _ _ (fun _ => rfl)

theorem errOf_propagateCancel_none (s : State) (p : Ctx) (cid j : Nat)
    (hj : errOf (propagateCancel s p cid).heap j = none) :
    errOf s.heap j = none := by
  cases hx : errOf s.heap j with
  | none => rfl
  | some x =>
    have : errOf (propagateCancel s p cid).heap j = some x := by
      unfold propagateCancel
      cases p with
      | background => exact hx
      | node pid =>
        dsimp only
        cases hg : s.heap.get? pid with
        | none => exact hx
        | some pn =>
          dsimp only
          cases he : pn.err with
          | some e => exact errOf_cancelNode_mono _ _ _ _ _ _ _ hx
          | none =>
            dsimp only
            rw [errOf_setNode_of s.heap pid j
              (fun m => { m with children := if cid ∈ m.children then m.children else m.children ++ [cid] }) (fun _ => rfl)]
            exact hx
    rw [this] at hj
    cases hj

theorem tinv_withDeadlineTimer (s : State) (p : Ctx) (dl : Int) (ht : tinv s) :
    tinv (withDeadlineTimer s p dl).1 := by
  unfold withDeadlineTimer
  set s1 : State := { s with heap := s.heap ++
    [{ parent := p, err := none, children := [], dl := some dl, timer := false }] } with hs1
  have ht1 : tinv s1 := by
    refine ⟨ECok_append s.heap _ (fun hx => by cases hx) ht.1,
            DLok_append s.heap _ (fun hx => by cases hx) ht.2⟩
  have ht2 : tinv (propagateCancel s1 p s.heap.length) :=
    tinv_propagateCancel s1 p s.heap.length ht1
  have hdl2 : dlOf (propagateCancel s1 p s.heap.length).heap s.heap.length = some dl := by
    rw [dlOf_propagateCancel]
    unfold dlOf
    rw [hs1]
    show ((s.heap ++ [_]).get? s.heap.length).bind _ = some dl
    rw [get_append_self]
    rfl
  by_cases hd : dl - (propagateCancel s1 p s.heap.length).now ≤ 0
  · rw [if_pos hd]
    exact tinv_cancelWrap _ _ _ _ ht2
  · rw [if_neg hd]
    cases hg : (propagateCancel s1 p s.heap.length).heap.get? s.heap.length with
    | none => exact ht2
    | some n =>
      dsimp only
      by_cases hne : n.err = none
      · rw [if_pos hne]
        constructor
        · intro j hj
          by_cases hjid : j = s.heap.length
          · subst hjid
            rw [errOf_setNode_of _ _ _ (fun m => { m with timer := true }) (fun _ => rfl)] at hj
            unfold errOf at hj
            rw [hg, Option.some_bind, hne] at hj
            cases hj
          · rw [errOf_setNode_of _ _ j (fun m => { m with timer := true }) (fun _ => rfl)] at hj
            unfold timerOf
            rw [setNode_get_other _ _ _ _ hjid]
            exact ht2.1 j hj
        · intro j hj
          by_cases hjid : j = s.heap.length
          · subst hjid
            rw [dlOf_setNode_of _ _ _ (fun m => { m with timer := true }) (fun _ => rfl)] at hj
            rw [hdl2] at hj
            cases hj
          · rw [dlOf_setNode_of _ _ j (fun m => { m with timer := true }) (fun _ => rfl)] at hj
            unfold timerOf
            rw [setNode_get_other _ _ _ _ hjid]
            exact ht2.2 j hj
      · rw [if_neg hne]
        exact ht2

theorem tinv_withDeadline (s : State) (p : Ctx) (dl : Int) (ht : tinv s) :
    tinv (withDeadline s p dl).1 := by
  unfold withDeadline
  cases hpd : ctxDeadline s p with
  | none => exact tinv_withDeadlineTimer s p dl ht
  | some pd =>
    dsimp only
    by_cases hlt : pd < dl
    · rw [if_pos hlt]; exact tinv_withCancel s p ht
    · rw [if_neg hlt]; exact tinv_withDeadlineTimer s p dl ht

theorem tinv_step (s : State) (op : Op) (ht : tinv s) : tinv (step s op) := by
  cases op with
  | opWithCancel p => exact tinv_withCancel s p ht
  | opWithDeadline p d => exact tinv_withDeadline s p d ht
  | opWithTimeout p ms => exact tinv_withDeadline s p (s.now + ms) ht
  | opCancel id => exact tinv_cancelWrap s id true Err.cancelled ht
  | opTimerFire id =>
    unfold step
    dsimp only
    by_cases hf : timerOf s.heap id
    · rw [if_pos hf]; exact tinv_cancelWrap s id true Err.deadlineExceeded ht
    · rw [if_neg hf]; exact ht
  | opTick ms => exact ht

theorem tinv_runOps (s : State) (ops : List Op) (ht : tinv s) :
    tinv (runOps s ops) := by
  induction ops generalizing s with
  | nil => exact ht
  | cons op ops ih => exact ih (step s op) (tinv_step s op ht)

theorem tinv_initState : tinv initState := by
  constructor
  · intro j hj
    unfold errOf at hj
    rw [List.get?_eq_none.mpr (by simp [initState])] at hj
    cases hj
  · intro j _
    unfold timerOf
    rw [List.get?_eq_none.mpr (by simp [initState])]

/-! ### Error monotonicity across every operation -/

theorem errOf_append_mono (h : Heap) (n : Node) (j : Nat) (e : Err)
    (hx : errOf h j = some e) : errOf (h ++ [n]) j = some e := by
  unfold errOf at hx ⊢
  rw [get_append_lt h n j (errOf_some_lt h j e hx)]
  exact hx

theorem errOf_propagateCancel_mono (s : State) (p : Ctx) (cid j : Nat) (e : Err)
    (hx : errOf s.heap j = some e) :
    errOf (propagateCancel s p cid).heap j = some e := by
  unfold propagateCancel
  cases p with
  | background => exact hx
  | node pid =>
    dsimp only
    cases hg : s.heap.get? pid with
    | none => exact hx
    | some pn =>
      dsimp only
      cases he : pn.err with
      | some e0 => exact errOf_cancelNode_mono _ _ _ _ _ _ _ hx
      | none =>
        dsimp only
        rw [errOf_setNode_of s.heap pid j
          (fun m => { m with children := if cid ∈ m.children then m.children else m.children ++ [cid] }) (fun _ => rfl)]
        exact hx

theorem errOf_withDeadlineTimer_mono (s : State) (p : Ctx) (dl : Int) (j : Nat)
    (e : Err) (hx : errOf s.heap j = some e) :
    errOf (withDeadlineTimer s p dl).1.heap j = some e := by
  unfold withDeadlineTimer
  have h1 : errOf (propagateCancel { s with heap := s.heap ++
      [{ parent := p, err := none, children := [], dl := some dl, timer := false }] }
      p s.heap.length).heap j = some e :=
    errOf_propagateCancel_mono _ p _ j e (errOf_append_mono s.heap _ j e hx)
  by_cases hd : dl - (propagateCancel { s with heap := s.heap ++
      [{ parent := p, err := none, children := [], dl := some dl, timer := false }] }
      p s.heap.length).now ≤ 0
  · rw [if_pos hd]
    exact errOf_cancelNode_mono _ _ _ _ _ _ _ h1
  · rw [if_neg hd]
    cases hg : (propagateCancel { s with heap := s.heap ++
        [{ parent := p, err := none, children := [], dl := some dl, timer := false }] }
        p s.heap.length).heap.get? s.heap.length with
    | none => exact h1
    | some n =>
      dsimp only
      by_cases hne : n.err = none
      · rw [if_pos hne]
        show errOf (setNode _ _ (fun m => { m with timer := true })) j = some e
        rw [errOf_setNode_of _ _ j (fun m => { m with timer := true }) (fun _ => rfl)]
        exact h1
      · rw [if_neg hne]
        exact h1

theorem errOf_withDeadline_mono (s : State) (p : Ctx) (dl : Int) (j : Nat)
    (e : Err) (hx : errOf s.heap j = some e) :
    errOf (withDeadline s p dl).1.heap j = some e := by
  unfold withDeadline
  cases hpd : ctxDeadline s p with
  | none => exact errOf_withDeadlineTimer_mono s p dl j e hx
  | some pd =>
    dsimp only
    by_cases hlt : pd < dl
    · rw [if_pos hlt]
      unfold withCancel
      exact errOf_propagateCancel_mono _ p _ j e (errOf_append_mono s.heap _ j e hx)
    · rw [if_neg hlt]
      exact errOf_withDeadlineTimer_mono s p dl j e hx

theorem errOf_step_mono (s : State) (op : Op) (j : Nat) (e : Err)
    (hx : errOf s.heap j = some e) : errOf (step s op).heap j = some e := by
  cases op with
  | opWithCancel p =>
    show errOf (withCancel s p).1.heap j = some e
    unfold withCancel
    exact errOf_propagateCancel_mono _ p _ j e (errOf_append_mono s.heap _ j e hx)
  | opWithDeadline p d => exact errOf_withDeadline_mono s p d j e hx
  | opWithTimeout p ms => exact errOf_withDeadline_mono s p (s.now + ms) j e hx
  | opCancel id => exact errOf_cancelNode_mono _ _ _ _ _ _ _ hx
  | opTimerFire id =>
    unfold step
    dsimp only
    by_cases hf : timerOf s.heap id
    · rw [if_pos hf]
      exact errOf_cancelNode_mono _ _ _ _ _ _ _ hx
    · rw [if_neg hf]
      exact hx
  | opTick ms => exact hx

/-! ### Frame lemma: a cancel never touches errors outside the tracked subtree -/

theorem errOf_cancelNode_frame : ∀ (fuel : Nat) (h : Heap) (id : Nat)
    (rfp : Bool) (e : Err) (j : Nat),
    ¬ Reach h id j → errOf (cancelNode fuel h id rfp e) j = errOf h j := by
  intro fuel
  induction fuel with
  | zero => intro h id rfp e j _; rfl
  | succ fuel ih =>
    intro h id rfp e j hnr
    cases hg : h.get? id with
    | none => rw [cancelNode_succ_none fuel h id rfp e hg]
    | some n =>
      cases he : n.err with
      | some e0 =>
        rw [cancelNode_succ_settled fuel h id rfp e n hg (by rw [he]; rfl)]
        by_cases hd : n.dl.isSome
        · rw [if_pos hd, errOf_clearTimer]
        · rw [if_neg hd]
      | none =>
        rw [cancelNode_succ_live fuel h id rfp e n hg he]
        dsimp only
        have hjid : j ≠ id := fun hj => hnr (hj ▸ Reach_refl h id)
        have hchid : n.children = childrenOf h id := by
          unfold childrenOf; rw [hg]
        have hbase : errOf (setNode h id (fun m => { m with err := some e })) j = errOf h j := by
          unfold errOf; rw [setNode_get_other h id j _ hjid]
        have hbasech : ∀ x, childrenOf (setNode h id (fun m => { m with err := some e })) x =
            childrenOf h x :=
          fun x => childrenOf_setNode_of h id x _ (fun _ => rfl)
        have h2 : errOf (cascadeWith (fun hh c => cancelNode fuel hh c false e)
            (setNode h id (fun m => { m with err := some e })) n.children) j = errOf h j := by
          have := cascadeWith_pres
            (P := fun hh => errOf hh j = errOf h j ∧
              ∀ x, childrenOf hh x = childrenOf h x)
            (fun hh c => cancelNode fuel hh c false e) n.children
            (setNode h id (fun m => { m with err := some e }))
            (fun hh c hc hP => by
              have hnrc : ¬ Reach h c j := by
                intro hrc
                rw [hchid] at hc
                exact hnr (Reach_trans h id c j (Reach_of_child h id c hc) hrc)
              have hnrc' : ¬ Reach hh c j := fun hr =>
                hnrc ((Reach_congr h hh hP.2 c j).mp hr)
              refine ⟨(ih hh c false e j hnrc').trans hP.1, fun x => ?_⟩
              exact (childrenOf_cancelNode_false fuel hh c e x).trans (hP.2 x))
            ⟨hbase, hbasech⟩
          exact this.1
        by_cases hrt : rfp
        · by_cases hd : n.dl.isSome
          · rw [if_pos hrt, if_pos hd, errOf_clearTimer, errOf_removeChild]; exact h2
          · rw [if_pos hrt, if_neg hd, errOf_removeChild]; exact h2
        · by_cases hd : n.dl.isSome
          · rw [if_neg hrt, if_pos hd, errOf_clearTimer]; exact h2
          · rw [if_neg hrt, if_neg hd]; exact h2

/-! ### Children-set characterization of a cancel -/

theorem childrenOf_cancelNode_other (fuel : Nat) (h : Heap) (id : Nat)
    (rfp : Bool) (e : Err) (j : Nat)
    (hj : ∀ pid, parentOf h id = some (Ctx.node pid) → j ≠ pid) :
    childrenOf (cancelNode fuel h id rfp e) j = childrenOf h j := by
  cases fuel with
  | zero => rfl
  | succ fuel =>
    cases hg : h.get? id with
    | none => rw [cancelNode_succ_none fuel h id rfp e hg]
    | some n =>
      have hpar : parentOf h id = some n.parent := by
        unfold parentOf; rw [hg]; rfl
      cases he : n.err with
      | some e0 =>
        rw [cancelNode_succ_settled fuel h id rfp e n hg (by rw [he]; rfl)]
        by_cases hd : n.dl.isSome
        · rw [if_pos hd, childrenOf_clearTimer]
        · rw [if_neg hd]
      | none =>
        rw [cancelNode_succ_live fuel h id rfp e n hg he]
        dsimp only
        have h2 : childrenOf (cascadeWith (fun hh c => cancelNode fuel hh c false e)
            (setNode h id (fun m => { m with err := some e })) n.children) j =
            childrenOf h j := by
          refine cascadeWith_pres (P := fun hh => childrenOf hh j = childrenOf h j)
            _ n.children _
            (fun hh c _ hP => (childrenOf_cancelNode_false fuel hh c e j).trans hP)
            (childrenOf_setNode_of h id j _ (fun _ => rfl))
        have hrem : childrenOf (removeChild (cascadeWith
            (fun hh c => cancelNode fuel hh c false e)
            (setNode h id (fun m => { m with err := some e })) n.children)
            n.parent id) j = childrenOf h j := by
          cases hp : n.parent with
          | background => rw [childrenOf_removeChild_background]; exact h2
          | node pid =>
            have hne : j ≠ pid := hj pid (by rw [hpar, hp])
            rw [childrenOf_removeChild_other _ pid id j hne]; exact h2
        by_cases hrt : rfp
        · by_cases hd : n.dl.isSome
          · rw [if_pos hrt, if_pos hd, childrenOf_clearTimer]; exact hrem
          · rw [if_pos hrt, if_neg hd]; exact hrem
        · by_cases hd : n.dl.isSome
          · rw [if_neg hrt, if_pos hd, childrenOf_clearTimer]; exact h2
          · rw [if_neg hrt, if_neg hd]; exact h2

theorem childrenOf_cancelNode_parent (fuel : Nat) (h : Heap) (id : Nat)
    (e : Err) (n : Node) (pid : Nat) (hg : h.get? id = some n)
    (he : n.err = none) (hp : n.parent = Ctx.node pid) :
    childrenOf (cancelNode (fuel + 1) h id true e) pid =
      (childrenOf h pid).filter (fun x => x != id) := by
  rw [cancelNode_succ_live fuel h id true e n hg he]
  dsimp only
  have h2 : childrenOf (cascadeWith (fun hh c => cancelNode fuel hh c false e)
      (setNode h id (fun m => { m with err := some e })) n.children) pid =
      childrenOf h pid := by
    refine cascadeWith_pres (P := fun hh => childrenOf hh pid = childrenOf h pid)
      _ n.children _
      (fun hh c _ hP => (childrenOf_cancelNode_false fuel hh c e pid).trans hP)
      (childrenOf_setNode_of h id pid _ (fun _ => rfl))
  rw [if_pos rfl, hp]
  by_cases hd : n.dl.isSome
  · rw [if_pos hd, childrenOf_clearTimer, childrenOf_removeChild_self, h2]
  · rw [if_neg hd, childrenOf_removeChild_self, h2]

/-! ### Liveness helpers -/

theorem liveN_errOf (h : Heap) (x : Nat) (hl : liveN h x = true) :
    errOf h x = none := by
  unfold liveN at hl
  cases hg : h.get? x with
  | none => rw [hg] at hl; cases hl
  | some n =>
    rw [hg] at hl
    unfold errOf
    rw [hg, Option.some_bind]
    exact of_decide_eq_true hl

theorem liveN_lt (h : Heap) (x : Nat) (hl : liveN h x = true) : x < h.length := by
  unfold liveN at hl
  by_contra hlt
  rw [List.get?_eq_none.mpr (by omega)] at hl
  cases hl

/-- Every node of the tracked subtree of `id` is still live. -/
def subtreeLiveb (h : Heap) (id : Nat) : Bool :=
  (List.range h.length).all (fun j => !(reachIn h.length h id j) || liveN h j)

theorem subok_of_subtreeLive (h : Heap) (id : Nat) (e : Err)
    (hs : structOK h = true) (hid : liveN h id = true)
    (hl : subtreeLiveb h id = true) : subok h id e := by
  intro j hr
  refine Or.inl ?_
  rcases hr with ⟨k, hk⟩
  rcases reach_lt_length h hs j k id hk with heq | hlt
  · rw [← heq] at hid
    exact liveN_errOf h j hid
  · have hrb : reachIn h.length h id j = true :=
      (Reach_iff_reachIn_length h hs id j).mp ⟨k, hk⟩
    unfold subtreeLiveb at hl
    rw [List.all_eq_true] at hl
    have := hl j (List.mem_range.mpr hlt)
    rw [hrb] at this
    simp only [Bool.not_true, Bool.false_or] at this
    exact liveN_errOf h j this

/-! ### Cancelling twice is a no-op the second time -/

theorem cancelWrap_idem (s : State) (id : Nat) (rfp rfp' : Bool) (e e' : Err) :
    cancelWrap (cancelWrap s id rfp e) id rfp' e' = cancelWrap s id rfp e := by
  unfold cancelWrap
  have hlen : (cancelNode (s.heap.length + 1) s.heap id rfp e).length = s.heap.length :=
    cancelNode_length _ _ _ _ _
  congr 1
  rw [hlen]
  cases hg' : (cancelNode (s.heap.length + 1) s.heap id rfp e).get? id with
  | none => exact cancelNode_succ_none _ _ _ _ _ hg'
  | some n' =>
    have hidlt : id < s.heap.length := by
      by_contra hlt
      rw [List.get?_eq_none.mpr (by rw [hlen]; omega)] at hg'
      cases hg'
    have hgex : ∃ n, s.heap.get? id = some n := by
      cases hgg : s.heap.get? id with
      | none => exact absurd (List.get?_eq_none.mp hgg) (by omega)
      | some n => exact ⟨n, rfl⟩
    obtain ⟨n, hg⟩ := hgex
    have herr : errOf (cancelNode (s.heap.length + 1) s.heap id rfp e) id =
        some (n.err.getD e) :=
      errOf_cancelNode_self s.heap.length s.heap id rfp e n hg
    have hne' : n'.err.isSome = true := by
      unfold errOf at herr
      rw [hg', Option.some_bind] at herr
      rw [herr]
      rfl
    rw [cancelNode_succ_settled _ _ _ _ _ n' hg' hne']
    by_cases hd : n'.dl.isSome
    · rw [if_pos hd]
      have hdlEq : n'.dl = n.dl := by
        have := dlOf_cancelNode (s.heap.length + 1) s.heap id rfp e id
        unfold dlOf at this
        rw [hg', hg, Option.some_bind, Option.some_bind] at this
        exact this
      have htf : timerOf (cancelNode (s.heap.length + 1) s.heap id rfp e) id = false :=
        timerOf_cancelNode_self_dl s.heap.length s.heap id rfp e n hg
          (by rw [← hdlEq]; exact hd)
      unfold clearTimer
      rw [hg']
      dsimp only
      have hnt : n'.timer = false := by
        unfold timerOf at htf
        rw [hg'] at htf
        exact htf
      rw [hnt]
      simp
    · rw [if_neg hd]

/-! ### withDeadline degradation and deadline reporting -/

theorem withDeadline_degrade (s : State) (p : Ctx) (pd d : Int)
    (hp : ctxDeadline s p = some pd) (hlt : pd < d) :
    withDeadline s p d = withCancel s p := by
  unfold withDeadline
  rw [hp]
  dsimp only
  rw [if_pos hlt]

theorem withCancel_deadline_empty (s : State) (p : Ctx) :
    ctxDeadline (withCancel s p).1 (withCancel s p).2 = none := by
  unfold withCancel
  dsimp only
  show dlOf (propagateCancel { s with heap := s.heap ++
    [{ parent := p, err := none, children := [], dl := none, timer := false }] }
    p s.heap.length).heap s.heap.length = none
  rw [dlOf_propagateCancel]
  unfold dlOf
  show ((s.heap ++ [_]).get? s.heap.length).bind _ = none
  rw [get_append_self]
  rfl

/-! ### Concrete example states (built through the public factories) -/

/-- Node 0 tracks children 1 and 2; node 3 is a second root-level node. -/
def exW : State :=
  (withCancel (withCancel (withCancel (withCancel initState Ctx.background).1
    (Ctx.node 0)).1 (Ctx.node 0)).1 Ctx.background).1

/-- A single timer node (deadline 5, timer scheduled) at the root. -/
def exT : State := (withDeadline initState Ctx.background 5).1

/-- A single already-cancelled node at the root. -/
def exSettled : State := cancelClosure (withCancel initState Ctx.background).1 0

/-- Node 0 tracking a single child node 1, both live. -/
def exPair : State :=
  (withCancel (withCancel initState Ctx.background).1 (Ctx.node 0)).1

/-- The root-level fresh `CancelCtx` node value. -/
def freshNode (p : Ctx) : Node :=
  { parent := p, err := none, children := [], dl := none, timer := false }

/-- The node stored at index 0 of `exSettled`. -/
def exSettledNode : Node :=
  { parent := Ctx.background, err := some Err.cancelled, children := [], dl := none, timer := false }

/-- The node stored at index 1 of `exW`. -/
def exWNode1 : Node :=
  { parent := Ctx.node 0, err := none, children := [], dl := none, timer := false }

/-! ### Claim theorems -/

/-- C1 (counterexample): the source compares deadlines with a STRICT
`parentDeadline < deadline`, so with the parent's deadline EQUAL to the
requested one the derivation does not degrade to `withCancel`: it
builds a `TimerCtx` (the returned context reports a deadline) and
schedules a timer — refuting "p earlier than or equal to d degrades to
a plain cancellable-node derivation". -/
theorem claim_C1_counterexample :
    ctxDeadline exT (Ctx.node 0) = some 5 ∧ (5 : Int) ≤ 5 ∧
    (withDeadline exT (Ctx.node 0) 5).2 = Ctx.node 1 ∧
    dlOf (withDeadline exT (Ctx.node 0) 5).1.heap 1 = some 5 ∧
    timerOf (withDeadline exT (Ctx.node 0) 5).1.heap 1 = true ∧
    withDeadline exT (Ctx.node 0) 5 ≠ withCancel exT (Ctx.node 0) := by
  decide

/-- C1 (amended): for every parent context with deadline `pd` STRICTLY
earlier than the requested deadline `d`, `withDeadline` degrades to a
plain `withCancel` derivation — the two calls return identical results,
so no timer node is constructed and no timer is scheduled. -/
theorem claim_C1 (s : State) (p : Ctx) (pd d : Int)
    (hp : ctxDeadline s p = some pd) (hlt : pd < d) :
    withDeadline s p d = withCancel s p :=
  withDeadline_degrade s p pd d hp hlt

theorem claim_C1_witness :
    ctxDeadline exT (Ctx.node 0) = some 5 ∧ (5 : Int) < 7 ∧
    withDeadline exT (Ctx.node 0) 7 = withCancel exT (Ctx.node 0) :=
  ⟨by decide, by decide, claim_C1 exT (Ctx.node 0) 5 7 (by decide) (by decide)⟩

/-- C2 (code bug): after a cancel call settles node 0 (cascading to its
tracked child 1), the child-tracking set of node 0 is NOT cleared — it
still holds `[1]`, although the source's own field comment says
`children ... set to nil by the first cancel call` (and the spec says
the set is cleared/dropped once the node settles). -/
theorem claim_C2 :
    errOf (cancelClosure exPair 0).heap 0 = some Err.cancelled ∧
    errOf (cancelClosure exPair 0).heap 1 = some Err.cancelled ∧
    childrenOf (cancelClosure exPair 0).heap 0 = [1] := by
  decide

/-- C3: once `error()` returns a non-empty value, it returns that same
value after any further sequence of operations (derivations, cancels,
cascades, timer expiries, clock advance): settlement is one-way. -/
theorem claim_C3 (s : State) (c : Ctx) (e : Err) (ops : List Op)
    (hx : ctxError s c = some e) : ctxError (runOps s ops) c = some e := by
  induction ops generalizing s with
  | nil => exact hx
  | cons op ops ih =>
    refine ih (step s op) ?_
    cases c with
    | background => exact Option.noConfusion hx
    | node id => exact errOf_step_mono s op id e hx

theorem claim_C3_witness :
    ctxError exSettled (Ctx.node 0) = some Err.cancelled ∧
    ctxError (runOps exSettled
      [Op.opWithCancel (Ctx.node 0), Op.opCancel 0, Op.opTimerFire 0,
       Op.opTick 100, Op.opWithTimeout (Ctx.node 0) 3]) (Ctx.node 0) =
      some Err.cancelled :=
  ⟨by decide,
   claim_C3 exSettled (Ctx.node 0) Err.cancelled
     [Op.opWithCancel (Ctx.node 0), Op.opCancel 0, Op.opTimerFire 0,
      Op.opTick 100, Op.opWithTimeout (Ctx.node 0) 3] (by decide)⟩

/-- C4: invoking the cancel closure of a live node settles, within the
same (synchronous) call, the node itself and every transitively tracked
descendant with the same reason `cancelled`; every node outside the
tracked subtree keeps its previous error, and no children set other
than the cancelled node's own parent's is touched (descendants are
cascaded with `removeFromParent = false`, so they stay registered). -/
theorem claim_C4 (s : State) (id : Nat)
    (hs : structOK s.heap = true)
    (hlive : liveN s.heap id = true)
    (hsub : subtreeLiveb s.heap id = true) :
    errOf (cancelClosure s id).heap id = some Err.cancelled ∧
    (∀ j, Reach s.heap id j →
      errOf (cancelClosure s id).heap j = some Err.cancelled) ∧
    (∀ j, ¬ Reach s.heap id j →
      errOf (cancelClosure s id).heap j = errOf s.heap j) ∧
    (∀ j, (∀ pid, parentOf s.heap id = some (Ctx.node pid) → j ≠ pid) →
      childrenOf (cancelClosure s id).heap j = childrenOf s.heap j) := by
  have hid : id < s.heap.length := liveN_lt s.heap id hlive
  have hsk : subok s.heap id Err.cancelled :=
    subok_of_subtreeLive s.heap id Err.cancelled hs hlive hsub
  have hcc := cancel_charac (s.heap.length + 1) s.heap id true Err.cancelled hs hsk
    (by omega) hid
  exact ⟨(hcc id).1 (Reach_refl s.heap id), fun j => (hcc j).1, fun j => (hcc j).2,
    fun j hj => childrenOf_cancelNode_other (s.heap.length + 1) s.heap id true
      Err.cancelled j hj⟩

theorem claim_C4_witness :
    structOK exW.heap = true ∧ liveN exW.heap 0 = true ∧
    subtreeLiveb exW.heap 0 = true ∧
    errOf (cancelClosure exW 0).heap 2 = some Err.cancelled ∧
    errOf (cancelClosure exW 0).heap 3 = errOf exW.heap 3 := by
  refine ⟨by decide, by decide, by decide, ?_, ?_⟩
  · exact (claim_C4 exW 0 (by decide) (by decide) (by decide)).2.1 2
      ((Reach_iff_reachIn_length exW.heap (by decide) 0 2).mpr (by decide))
  · refine (claim_C4 exW 0 (by decide) (by decide) (by decide)).2.2.1 3
      (fun hr => ?_)
    have := (Reach_iff_reachIn_length exW.heap (by decide) 0 3).mp hr
    exact absurd this (by decide)

/-- C5: a second cancel call on the same node — whatever flags and
reason either call uses, in particular a second invocation of the
returned cancel closure — leaves the state exactly as the first call
left it (no state change, no second cascade, no second signal
resolution), and an internal cancel with a present reason never
raises. -/
theorem claim_C5 (s : State) (id : Nat) (rfp rfp' : Bool) (e e' : Err) :
    cancelWrap (cancelWrap s id rfp e) id rfp' e' = cancelWrap s id rfp e ∧
    cancelClosure (cancelClosure s id) id = cancelClosure s id ∧
    cancelOp s id rfp (some e) = Except.ok (cancelWrap s id rfp e) :=
  ⟨cancelWrap_idem s id rfp rfp' e e',
   cancelWrap_idem s id true true Err.cancelled Err.cancelled, rfl⟩

/-- C6: deriving a cancellable child from an already-settled parent
returns a child that is immediately settled with the parent's terminal
error — with no cancel call on the returned closure — and the child is
not registered in the parent's tracking set (which is left unchanged). -/
theorem claim_C6 (s : State) (pid : Nat) (p : Node) (e : Err)
    (hs : structOK s.heap = true)
    (hg : s.heap.get? pid = some p) (he : p.err = some e) :
    (withCancel s (Ctx.node pid)).2 = Ctx.node s.heap.length ∧
    ctxError (withCancel s (Ctx.node pid)).1 (withCancel s (Ctx.node pid)).2 =
      some e ∧
    childrenOf (withCancel s (Ctx.node pid)).1.heap pid = p.children ∧
    s.heap.length ∉ childrenOf (withCancel s (Ctx.node pid)).1.heap pid := by
  have hpid : pid < s.heap.length := by
    by_contra hlt
    rw [List.get?_eq_none.mpr (by omega)] at hg
    cases hg
  have hred : (withCancel s (Ctx.node pid)).1 =
      cancelWrap { s with heap := s.heap ++ [freshNode (Ctx.node pid)] }
        s.heap.length false e := by
    unfold withCancel propagateCancel freshNode
    dsimp only
    rw [get_append_lt s.heap _ pid hpid, hg]
    dsimp only
    rw [he]
  have hfresh : (s.heap ++ [freshNode (Ctx.node pid)]).get? s.heap.length =
      some (freshNode (Ctx.node pid)) := get_append_self s.heap _
  have hchildren : childrenOf (withCancel s (Ctx.node pid)).1.heap pid = p.children := by
    rw [hred]
    show childrenOf (cancelNode _ _ s.heap.length false e) pid = p.children
    rw [childrenOf_cancelNode_false]
    unfold childrenOf
    rw [get_append_lt s.heap _ pid hpid, hg]
  refine ⟨rfl, ?_, hchildren, ?_⟩
  · show errOf (withCancel s (Ctx.node pid)).1.heap s.heap.length = some e
    rw [hred]
    exact errOf_cancelNode_self
      ((s.heap ++ [freshNode (Ctx.node pid)]).length)
      (s.heap ++ [freshNode (Ctx.node pid)])
      s.heap.length false e (freshNode (Ctx.node pid)) hfresh
  · rw [hchildren]
    intro hmem
    have hmem' : s.heap.length ∈ childrenOf s.heap pid := by
      unfold childrenOf
      rw [hg]
      exact hmem
    have := (structOK_child s.heap pid s.heap.length hs hmem').2.1
    omega

theorem claim_C6_witness :
    structOK exSettled.heap = true ∧
    exSettled.heap.get? 0 = some exSettledNode ∧
    ((withCancel exSettled (Ctx.node 0)).2 = Ctx.node 1 ∧
      ctxError (withCancel exSettled (Ctx.node 0)).1
        (withCancel exSettled (Ctx.node 0)).2 = some Err.cancelled ∧
      childrenOf (withCancel exSettled (Ctx.node 0)).1.heap 0 = exSettledNode.children ∧
      1 ∉ childrenOf (withCancel exSettled (Ctx.node 0)).1.heap 0) := by
  refine ⟨by decide, by decide, ?_⟩
  exact claim_C6 exSettled 0 exSettledNode Err.cancelled (by decide) (by decide)
    (by decide)

/-- C7: along every run of the system from the initial state, a settled
node never retains a pending timer handle — whether it was settled by
its own closure, by a cascade from an ancestor, or by its deadline
firing, the handle is cleared on settlement. -/
theorem claim_C7 (ops : List Op) :
    (runOps initState ops).heap.all (fun n => !n.err.isSome || !n.timer) = true := by
  have ht := tinv_runOps initState ops tinv_initState
  rw [List.all_eq_true]
  intro n hn
  rcases List.mem_iff_get?.mp hn with ⟨j, hj⟩
  cases hi : n.err.isSome with
  | false => rfl
  | true =>
    have hecj : (errOf (runOps initState ops).heap j).isSome = true := by
      unfold errOf; rw [hj, Option.some_bind]; exact hi
    have htj := ht.1 j hecj
    have hnt : n.timer = false := by
      unfold timerOf at htj; rw [hj] at htj; exact htj
    rw [hnt]
    rfl

/-- C8: the internal cancel entry point invoked with an empty reason
raises `context: internal error: missing cancel error` synchronously
and produces no new state at all (the node, its signal and its children
are untouched). -/
theorem claim_C8 (s : State) (id : Nat) (rfp : Bool) :
    cancelOp s id rfp none =
      Except.error "context: internal error: missing cancel error" := rfl

/-- C9: cancelling a node via its closure never changes the error of
its parent or of any sibling (more generally of any node outside its
tracked subtree), and the only children-set mutation is the node's own
removal from its parent's set. -/
theorem claim_C9 (s : State) (id pid : Nat) (n : Node)
    (hs : structOK s.heap = true)
    (hg : s.heap.get? id = some n)
    (hp : n.parent = Ctx.node pid) :
    errOf (cancelClosure s id).heap pid = errOf s.heap pid ∧
    (∀ c, c ∈ childrenOf s.heap pid → c ≠ id →
      errOf (cancelClosure s id).heap c = errOf s.heap c) ∧
    (∀ j, ¬ Reach s.heap id j →
      errOf (cancelClosure s id).heap j = errOf s.heap j) ∧
    (∀ j, j ≠ pid → childrenOf (cancelClosure s id).heap j = childrenOf s.heap j) ∧
    (n.err = none →
      childrenOf (cancelClosure s id).heap pid =
        (childrenOf s.heap pid).filter (fun x => x != id)) := by
  have hparid : parentOf s.heap id = some (Ctx.node pid) := by
    unfold parentOf
    rw [hg, Option.map_some', hp]
  have hpidlt : pid < id := structOK_parent s.heap id pid hs hparid
  have hfr := fun (j : Nat) =>
    errOf_cancelNode_frame (s.heap.length + 1) s.heap id true Err.cancelled j
  refine ⟨?_, ?_, ?_, ?_, ?_⟩
  · refine hfr pid (fun hr => ?_)
    rcases hr with ⟨k, hk⟩
    have := reach_le s.heap hs pid k id hk
    omega
  · intro c hc hcne
    refine hfr c (fun hr => ?_)
    rcases Reach_last s.heap id c hr hcne with ⟨x, hix, hcx⟩
    have hxpar := (structOK_child s.heap x c hs hcx).2.2
    have hppar := (structOK_child s.heap pid c hs hc).2.2
    rw [hxpar] at hppar
    simp only [Option.some.injEq, Ctx.node.injEq] at hppar
    rcases hix with ⟨k, hk⟩
    have := reach_le s.heap hs x k id hk
    omega
  · exact fun j hj => hfr j hj
  · intro j hj
    refine childrenOf_cancelNode_other (s.heap.length + 1) s.heap id true
      Err.cancelled j (fun pid' hpid' => ?_)
    rw [hparid] at hpid'
    simp only [Option.some.injEq, Ctx.node.injEq] at hpid'
    rw [← hpid']
    exact hj
  · intro hne
    exact childrenOf_cancelNode_parent s.heap.length s.heap id Err.cancelled n pid
      hg hne hp

theorem claim_C9_witness :
    structOK exW.heap = true ∧
    exW.heap.get? 1 = some exWNode1 ∧
    errOf (cancelClosure exW 1).heap 0 = errOf exW.heap 0 ∧
    errOf (cancelClosure exW 1).heap 2 = errOf exW.heap 2 ∧
    childrenOf (cancelClosure exW 1).heap 0 =
      (childrenOf exW.heap 0).filter (fun x => x != 1) := by
  have h := claim_C9 exW 1 0 exWNode1 (by decide) (by decide) (by decide)
  exact ⟨by decide, by decide, h.1, h.2.1 2 (by decide) (by decide),
    h.2.2.2.2 (by decide)⟩

/-- C10: a plain cancellable node always reports an empty deadline —
including the node returned by `withDeadline` when the parent's
deadline already dominates (strictly earlier), even though the parent's
deadline is non-empty: the inherited effective deadline is not
reported. -/
theorem claim_C10 (s : State) (p : Ctx) (pd d : Int)
    (hp : ctxDeadline s p = some pd) (hlt : pd < d) :
    ctxDeadline (withDeadline s p d).1 (withDeadline s p d).2 = none ∧
    (∀ (s' : State) (p' : Ctx),
      ctxDeadline (withCancel s' p').1 (withCancel s' p').2 = none) := by
  constructor
  · rw [withDeadline_degrade s p pd d hp hlt]
    exact withCancel_deadline_empty s p
  · exact fun s' p' => withCancel_deadline_empty s' p'

theorem claim_C10_witness :
    ctxDeadline exT (Ctx.node 0) = some 5 ∧ (5 : Int) < 7 ∧
    ctxDeadline (withDeadline exT (Ctx.node 0) 7).1
      (withDeadline exT (Ctx.node 0) 7).2 = none :=
  ⟨by decide, by decide,
   (claim_C10 exT (Ctx.node 0) 5 7 (by decide) (by decide)).1⟩

/-! ### The structural invariant holds in every reachable state

`structOK` (children registered after, and linked back to, the node
tracking them) and `liveKids` (a live node only tracks live children)
are established at allocation time and preserved by every operation, so
the hypotheses of the C4/C9 theorems hold in every state the public
factories and closures can produce. -/

theorem nodeOK_intro (h : Heap) (a : Nat)
    (hp : ∀ p, parentOf h a = some (Ctx.node p) → p < a)
    (hc : ∀ c, c ∈ childrenOf h a →
      a < c ∧ c < h.length ∧ parentOf h c = some (Ctx.node a)) :
    nodeOK h a = true := by
  unfold nodeOK
  rw [Bool.and_eq_true]
  constructor
  · cases hpp : parentOf h a with
    | none => rfl
    | some ctx =>
      cases ctx with
      | background => rfl
      | node p => exact decide_eq_true (hp p hpp)
  · rw [List.all_eq_true]
    intro c hcc
    rcases hc c hcc with ⟨h1, h2, h3⟩
    rw [Bool.and_eq_true, Bool.and_eq_true]
    exact ⟨⟨decide_eq_true h1, decide_eq_true h2⟩, decide_eq_true h3⟩

theorem structOK_intro (h : Heap)
    (hn : ∀ a, a < h.length → nodeOK h a = true) : structOK h = true := by
  unfold structOK
  rw [List.all_eq_true]
  exact fun a ha => hn a (List.mem_range.mp ha)

/-- `structOK` is monotone under shrinking children sets (with the rest
of the structure unchanged). -/
theorem structOK_sub (h h' : Heap) (hlen : h'.length = h.length)
    (hpar : ∀ j, parentOf h' j = parentOf h j)
    (hsub : ∀ a c, c ∈ childrenOf h' a → c ∈ childrenOf h a)
    (hs : structOK h = true) : structOK h' = true := by
  refine structOK_intro h' (fun a _ => nodeOK_intro h' a ?_ ?_)
  · intro p hpp
    rw [hpar a] at hpp
    exact structOK_parent h a p hs hpp
  · intro c hcc
    have hcm := hsub a c hcc
    rcases structOK_child h a c hs hcm with ⟨h1, h2, h3⟩
    exact ⟨h1, by rw [hlen]; exact h2, by rw [hpar c]; exact h3⟩

theorem childrenOf_cancelNode_subset (fuel : Nat) (h : Heap) (id : Nat)
    (rfp : Bool) (e : Err) (a c : Nat)
    (hc : c ∈ childrenOf (cancelNode fuel h id rfp e) a) :
    c ∈ childrenOf h a := by
  cases fuel with
  | zero => exact hc
  | succ fuel =>
    cases hg : h.get? id with
    | none => rw [cancelNode_succ_none fuel h id rfp e hg] at hc; exact hc
    | some n =>
      cases he : n.err with
      | some e0 =>
        rw [cancelNode_succ_settled fuel h id rfp e n hg (by rw [he]; rfl)] at hc
        by_cases hd : n.dl.isSome
        · rw [if_pos hd, childrenOf_clearTimer] at hc; exact hc
        · rw [if_neg hd] at hc; exact hc
      | none =>
        rw [cancelNode_succ_live fuel h id rfp e n hg he] at hc
        dsimp only at hc
        have h2 : childrenOf (cascadeWith (fun hh c => cancelNode fuel hh c false e)
            (setNode h id (fun m => { m with err := some e })) n.children) a =
            childrenOf h a := by
          refine cascadeWith_pres (P := fun hh => childrenOf hh a = childrenOf h a)
            _ n.children _
            (fun hh cc _ hP => (childrenOf_cancelNode_false fuel hh cc e a).trans hP)
            (childrenOf_setNode_of h id a _ (fun _ => rfl))
        by_cases hrt : rfp
        · rw [if_pos hrt] at hc
          have hc' : c ∈ childrenOf (removeChild (cascadeWith
              (fun hh c => cancelNode fuel hh c false e)
              (setNode h id (fun m => { m with err := some e })) n.children)
              n.parent id) a := by
            by_cases hd : n.dl.isSome
            · rw [if_pos hd, childrenOf_clearTimer] at hc; exact hc
            · rw [if_neg hd] at hc; exact hc
          cases hp : n.parent with
          | background =>
            rw [hp, childrenOf_removeChild_background, h2] at hc'
            exact hc'
          | node pid =>
            by_cases hapid : a = pid
            · subst hapid
              rw [hp, childrenOf_removeChild_self, h2] at hc'
              exact (List.mem_filter.mp hc').1
            · rw [hp, childrenOf_removeChild_other _ pid id a hapid, h2] at hc'
              exact hc'
        · rw [if_neg hrt] at hc
          by_cases hd : n.dl.isSome
          · rw [if_pos hd, childrenOf_clearTimer, h2] at hc; exact hc
          · rw [if_neg hd, h2] at hc; exact hc

theorem structOK_cancelNode (fuel : Nat) (h : Heap) (id : Nat) (rfp : Bool)
    (e : Err) (hs : structOK h = true) :
    structOK (cancelNode fuel h id rfp e) = true :=
  structOK_sub h _ (cancelNode_length fuel h id rfp e)
    (fun j => parentOf_cancelNode fuel h id rfp e j)
    (fun a c hc => childrenOf_cancelNode_subset fuel h id rfp e a c hc)
    hs

/-! ### Liveness helpers for the live-children invariant -/

/-- A live node only tracks live children. -/
def liveKids (h : Heap) : Prop :=
  ∀ a c, liveN h a = true → c ∈ childrenOf h a → liveN h c = true

theorem liveN_spec (h : Heap) (x : Nat) :
    liveN h x = true ↔ ∃ n, h.get? x = some n ∧ n.err = none := by
  unfold liveN
  cases hg : h.get? x with
  | none =>
    constructor
    · intro hx; cases hx
    · rintro ⟨n, hn, _⟩; cases hn
  | some n =>
    constructor
    · intro hx; exact ⟨n, rfl, of_decide_eq_true hx⟩
    · rintro ⟨n', hn', he'⟩
      have hnn : n' = n := ((Option.some.injEq _ _).mp hn').symm
      exact decide_eq_true (by rw [← hnn]; exact he')

theorem liveN_of_err (h : Heap) (x : Nat) (hx : x < h.length)
    (he : errOf h x = none) : liveN h x = true := by
  have hgex : ∃ n, h.get? x = some n := by
    cases hgg : h.get? x with
    | none => exact absurd (List.get?_eq_none.mp hgg) (by omega)
    | some n => exact ⟨n, rfl⟩
  rcases hgex with ⟨n, hg⟩
  refine (liveN_spec h x).mpr ⟨n, hg, ?_⟩
  unfold errOf at he
  rw [hg, Option.some_bind] at he
  exact he

theorem liveN_lt_of_live (h : Heap) (x : Nat) (hl : liveN h x = true) :
    x < h.length := liveN_lt h x hl

theorem live_reach (h : Heap) (hs : structOK h = true) (hk : liveKids h)
    (id : Nat) (hid : liveN h id = true) :
    ∀ j, Reach h id j → liveN h j = true := by
  have aux : ∀ (k : Nat) (a j : Nat), liveN h a = true →
      reachIn k h a j = true → liveN h j = true := by
    intro k
    induction k with
    | zero =>
      intro a j ha hr
      have : a = j := by simpa [reachIn] using hr
      rw [← this]; exact ha
    | succ k ih =>
      intro a j ha hr
      rcases (by simpa [reachIn] using hr :
          a = j ∨ ∃ c ∈ childrenOf h a, reachIn k h c j = true) with heq | ⟨c, hc, hcr⟩
      · rw [← heq]; exact ha
      · exact ih c j (hk a c ha hc) hcr
  intro j hr
  rcases hr with ⟨k, hk'⟩
  exact aux k id j hid hk'

theorem subok_of_liveKids (h : Heap) (id : Nat) (e : Err)
    (hs : structOK h = true) (hk : liveKids h) (hid : liveN h id = true) :
    subok h id e :=
  fun j hr => Or.inl (liveN_errOf h j (live_reach h hs hk id hid j hr))

theorem subtreeLiveb_of_liveKids (h : Heap) (id : Nat)
    (hs : structOK h = true) (hk : liveKids h) (hid : liveN h id = true) :
    subtreeLiveb h id = true := by
  unfold subtreeLiveb
  rw [List.all_eq_true]
  intro j _
  cases hr : reachIn h.length h id j with
  | false => rfl
  | true =>
    have := live_reach h hs hk id hid j ⟨h.length, hr⟩
    rw [this]
    rfl

theorem liveN_setNode_of (h : Heap) (x j : Nat) (f : Node → Node)
    (hf : ∀ m, (f m).err = m.err) :
    liveN (setNode h x f) j = liveN h j := by
  unfold liveN
  by_cases hj : j = x
  · subst hj
    rw [setNode_get_self]
    cases h.get? j with
    | none => rfl
    | some n => simp [hf]
  · rw [setNode_get_other h x j f hj]

theorem liveN_clearTimer (h : Heap) (x j : Nat) :
    liveN (clearTimer h x) j = liveN h j := by
  unfold clearTimer
  cases hg : h.get? x with
  | none => rfl
  | some n =>
    dsimp only
    by_cases ht : n.timer
    · rw [if_pos ht, liveN_setNode_of h x j (fun m => { m with timer := false }) (fun _ => rfl)]
    · rw [if_neg ht]

/-- Cancelling a non-live (absent or already settled) node does not
change errors, liveness or children at all. -/
theorem liveKids_cancelNode_dead (fuel : Nat) (h : Heap) (id : Nat)
    (rfp : Bool) (e : Err) (hdead : ¬ liveN h id = true) (hk : liveKids h) :
    liveKids (cancelNode fuel h id rfp e) := by
  cases fuel with
  | zero => exact hk
  | succ fuel =>
    cases hg : h.get? id with
    | none => rw [cancelNode_succ_none fuel h id rfp e hg]; exact hk
    | some n =>
      cases he : n.err with
      | none => exact absurd ((liveN_spec h id).mpr ⟨n, hg, he⟩) hdead
      | some e0 =>
        rw [cancelNode_succ_settled fuel h id rfp e n hg (by rw [he]; rfl)]
        by_cases hd : n.dl.isSome
        · rw [if_pos hd]
          intro a c ha hc
          rw [liveN_clearTimer] at ha ⊢
          rw [childrenOf_clearTimer] at hc
          exact hk a c ha hc
        · rw [if_neg hd]; exact hk

/-- Invoking the cancel closure preserves the live-children invariant:
the whole tracked subtree settles together, and the cancelled node is
removed from its parent's set. -/
theorem liveKids_cancelClosure (h : Heap) (id : Nat) (e : Err)
    (hs : structOK h = true) (hk : liveKids h) :
    liveKids (cancelNode (h.length + 1) h id true e) := by
  by_cases hlive : liveN h id = true
  · have hid_lt : id < h.length := liveN_lt h id hlive
    rcases (liveN_spec h id).mp hlive with ⟨n, hg, hne⟩
    have hsk : subok h id e := subok_of_liveKids h id e hs hk hlive
    have hcc := cancel_charac (h.length + 1) h id true e hs hsk (by omega) hid_lt
    intro a c ha' hc'
    have ha_lt : a < h.length := by
      have := liveN_lt _ a ha'
      rw [cancelNode_length] at this
      exact this
    have haerr' : errOf (cancelNode (h.length + 1) h id true e) a = none :=
      liveN_errOf _ a ha'
    have hnra : ¬ Reach h id a := by
      intro hr
      rw [(hcc a).1 hr] at haerr'
      cases haerr'
    have ha : liveN h a = true :=
      liveN_of_err h a ha_lt (by rw [← (hcc a).2 hnra]; exact haerr')
    have main : ∀ c', c' ∈ childrenOf h a → c' ≠ id →
        liveN (cancelNode (h.length + 1) h id true e) c' = true := by
      intro c' hc'm hc'ne
      have hc_live : liveN h c' = true := hk a c' ha hc'm
      have hnrc : ¬ Reach h id c' := by
        intro hrc
        rcases Reach_last h id c' hrc hc'ne with ⟨x, hix, hcx⟩
        have hx1 := (structOK_child h x c' hs hcx).2.2
        have hx2 := (structOK_child h a c' hs hc'm).2.2
        rw [hx1] at hx2
        simp only [Option.some.injEq, Ctx.node.injEq] at hx2
        exact hnra (hx2 ▸ hix)
      refine liveN_of_err _ c'
        (by rw [cancelNode_length]; exact liveN_lt _ _ hc_live) ?_
      rw [(hcc c').2 hnrc]
      exact liveN_errOf h c' hc_live
    by_cases hcase : ∀ pid', parentOf h id = some (Ctx.node pid') → a ≠ pid'
    · have hch : childrenOf (cancelNode (h.length + 1) h id true e) a =
          childrenOf h a :=
        childrenOf_cancelNode_other (h.length + 1) h id true e a hcase
      rw [hch] at hc'
      have hcid : c ≠ id := by
        intro hcid
        have := (structOK_child h a c hs hc').2.2
        rw [hcid] at this
        exact hcase a this rfl
      exact main c hc' hcid
    · push_neg at hcase
      rcases hcase with ⟨pid, hpid, hapid⟩
      rw [← hapid] at hpid
      have hnpar : n.parent = Ctx.node a := by
        unfold parentOf at hpid
        rw [hg, Option.map_some'] at hpid
        exact (Option.some.injEq _ _).mp hpid
      have hch := childrenOf_cancelNode_parent h.length h id e n a hg hne hnpar
      rw [hch] at hc'
      have hcmem := (List.mem_filter.mp hc').1
      have hcne : c ≠ id := by
        have := (List.mem_filter.mp hc').2
        simpa using this
      exact main c hcmem hcne
  · exact liveKids_cancelNode_dead (h.length + 1) h id true e hlive hk

/-- Cancelling a childless, unregistered node (the fresh child of an
already-settled parent in `propagateCancel`) settles only that node. -/
theorem liveKids_cancel_unregistered (h : Heap) (cid : Nat) (e : Err)
    (hs : structOK h = true) (hk : liveKids h)
    (hch : childrenOf h cid = [])
    (hunreg : ∀ a, cid ∉ childrenOf h a) :
    liveKids (cancelNode (h.length + 1) h cid false e) := by
  by_cases hlive : liveN h cid = true
  · have hid_lt : cid < h.length := liveN_lt h cid hlive
    have hsk : subok h cid e := subok_of_liveKids h cid e hs hk hlive
    have hcc := cancel_charac (h.length + 1) h cid false e hs hsk (by omega) hid_lt
    have honly : ∀ j, Reach h cid j → j = cid := by
      intro j hr
      rcases Reach_head h cid j hr with heq | ⟨c, hc, _⟩
      · exact heq.symm
      · rw [hch] at hc; cases hc
    intro a c ha' hc'
    rw [childrenOf_cancelNode_false] at hc'
    have ha_lt : a < h.length := by
      have := liveN_lt _ a ha'
      rw [cancelNode_length] at this
      exact this
    have haerr' : errOf (cancelNode (h.length + 1) h cid false e) a = none :=
      liveN_errOf _ a ha'
    have hnra : ¬ Reach h cid a := by
      intro hr
      rw [(hcc a).1 hr] at haerr'
      cases haerr'
    have ha : liveN h a = true :=
      liveN_of_err h a ha_lt (by rw [← (hcc a).2 hnra]; exact haerr')
    have hc_live : liveN h c = true := hk a c ha hc'
    have hnrc : ¬ Reach h cid c := by
      intro hrc
      have := honly c hrc
      rw [this] at hc'
      exact hunreg a hc'
    refine liveN_of_err _ c
      (by rw [cancelNode_length]; exact liveN_lt _ _ hc_live) ?_
    rw [(hcc c).2 hnrc]
    exact liveN_errOf h c hc_live
  · exact liveKids_cancelNode_dead (h.length + 1) h cid false e hlive hk

theorem append1_length (h : Heap) (nd : Node) :
    (h ++ [nd]).length = h.length + 1 := by simp

theorem liveN_append_lt (h : Heap) (nd : Node) (j : Nat) (hj : j < h.length) :
    liveN (h ++ [nd]) j = liveN h j := by
  unfold liveN
  rw [get_append_lt h nd j hj]

theorem childrenOf_append_lt (h : Heap) (nd : Node) (j : Nat) (hj : j < h.length) :
    childrenOf (h ++ [nd]) j = childrenOf h j := by
  unfold childrenOf
  rw [get_append_lt h nd j hj]

theorem childrenOf_append_self (h : Heap) (nd : Node) :
    childrenOf (h ++ [nd]) h.length = nd.children := by
  unfold childrenOf
  rw [get_append_self]

theorem structOK_append (h : Heap) (nd : Node)
    (hs : structOK h = true)
    (hch : nd.children = [])
    (hv : ∀ pid, nd.parent = Ctx.node pid → pid < h.length) :
    structOK (h ++ [nd]) = true := by
  refine structOK_intro _ (fun a ha => ?_)
  rw [append1_length] at ha
  rcases Nat.lt_or_ge a h.length with halt | hage
  · refine nodeOK_intro _ a ?_ ?_
    · intro q hq
      unfold parentOf at hq
      rw [get_append_lt h nd a halt] at hq
      exact structOK_parent h a q hs hq
    · intro c hcc
      rw [childrenOf_append_lt h nd a halt] at hcc
      rcases structOK_child h a c hs hcc with ⟨h1, h2, h3⟩
      refine ⟨h1, ?_, ?_⟩
      · rw [append1_length]; omega
      · unfold parentOf at h3 ⊢
        rw [get_append_lt h nd c h2]
        exact h3
  · have haeq : a = h.length := by omega
    rw [haeq]
    refine nodeOK_intro _ h.length ?_ ?_
    · intro q hq
      unfold parentOf at hq
      rw [get_append_self] at hq
      have hqq : nd.parent = Ctx.node q := by
        rw [Option.map_some'] at hq
        exact (Option.some.injEq _ _).mp hq
      exact Nat.lt_of_lt_of_le (hv q hqq) (Nat.le_refl _)
    · intro c hcc
      rw [childrenOf_append_self, hch] at hcc
      cases hcc

theorem liveKids_append (h : Heap) (nd : Node)
    (hs : structOK h = true) (hch : nd.children = [])
    (hk : liveKids h) : liveKids (h ++ [nd]) := by
  intro a c ha hc
  rcases Nat.lt_or_ge a h.length with halt | hage
  · rw [childrenOf_append_lt h nd a halt] at hc
    rw [liveN_append_lt h nd a halt] at ha
    have hclt : c < h.length := (structOK_child h a c hs hc).2.1
    rw [liveN_append_lt h nd c hclt]
    exact hk a c ha hc
  · rcases Nat.lt_or_ge a h.length with h' | h''
    · omega
    · by_cases haeq : a = h.length
      · rw [haeq, childrenOf_append_self, hch] at hc
        cases hc
      · have : childrenOf (h ++ [nd]) a = [] := by
          unfold childrenOf
          rw [get_append_gt h nd a (by omega)]
        rw [this] at hc
        cases hc

theorem structOK_propagateCancel (s : State) (p : Ctx) (cid : Nat)
    (hs : structOK s.heap = true)
    (hcid : cid < s.heap.length)
    (hlink : ∀ pid, p = Ctx.node pid →
      parentOf s.heap cid = some (Ctx.node pid) ∧ pid < cid) :
    structOK (propagateCancel s p cid).heap = true := by
  unfold propagateCancel
  cases p with
  | background => exact hs
  | node pid =>
    dsimp only
    cases hg : s.heap.get? pid with
    | none => exact hs
    | some pn =>
      dsimp only
      cases he : pn.err with
      | some e => exact structOK_cancelNode _ _ _ _ _ hs
      | none =>
        dsimp only
        rcases hlink pid rfl with ⟨hlink1, hlink2⟩
        refine structOK_intro _ (fun a ha => ?_)
        rw [setNode_length] at ha
        have hparpres : ∀ j, parentOf (setNode s.heap pid (fun m =>
            { m with children := if cid ∈ m.children then m.children
              else m.children ++ [cid] })) j = parentOf s.heap j :=
          fun j => parentOf_setNode_of s.heap pid j _ (fun _ => rfl)
        have hold : ∀ c, c ∈ childrenOf s.heap a →
            a < c ∧ c < (setNode s.heap pid (fun m =>
              { m with children := if cid ∈ m.children then m.children
                else m.children ++ [cid] })).length ∧
            parentOf (setNode s.heap pid (fun m =>
              { m with children := if cid ∈ m.children then m.children
                else m.children ++ [cid] })) c = some (Ctx.node a) := by
          intro c hcc
          rcases structOK_child s.heap a c hs hcc with ⟨h1, h2, h3⟩
          exact ⟨h1, by rw [setNode_length]; exact h2, by rw [hparpres c]; exact h3⟩
        refine nodeOK_intro _ a ?_ ?_
        · intro q hq
          rw [hparpres a] at hq
          exact structOK_parent s.heap a q hs hq
        · intro c hcc
          by_cases hapid : a = pid
          · have hcc' : c ∈ (if cid ∈ pn.children then pn.children
                else pn.children ++ [cid]) := by
              unfold childrenOf at hcc
              rw [hapid, setNode_get_self, hg] at hcc
              exact hcc
            have hpnch : childrenOf s.heap a = pn.children := by
              unfold childrenOf; rw [hapid, hg]
            by_cases hmem : cid ∈ pn.children
            · rw [if_pos hmem] at hcc'
              exact hold c (by rw [hpnch]; exact hcc')
            · rw [if_neg hmem] at hcc'
              rcases List.mem_append.mp hcc' with hcold | hcnew
              · exact hold c (by rw [hpnch]; exact hcold)
              · have hceq : c = cid := by simpa using hcnew
                rw [hceq]
                refine ⟨by rw [hapid]; exact hlink2,
                  by rw [setNode_length]; exact hcid, ?_⟩
                rw [hparpres cid, hapid]
                exact hlink1
          · have hcc' : c ∈ childrenOf s.heap a := by
              unfold childrenOf at hcc ⊢
              rw [setNode_get_other s.heap pid a _ hapid] at hcc
              exact hcc
            exact hold c hcc'

theorem liveKids_setNode_obs (h : Heap) (x : Nat) (f : Node → Node)
    (hfe : ∀ m, (f m).err = m.err) (hfc : ∀ m, (f m).children = m.children)
    (hk : liveKids h) : liveKids (setNode h x f) := by
  intro a c ha hc
  rw [liveN_setNode_of h x a f hfe] at ha
  rw [childrenOf_setNode_of h x a f hfc] at hc
  rw [liveN_setNode_of h x c f hfe]
  exact hk a c ha hc

theorem liveKids_propagateCancel (s : State) (p : Ctx) (cid : Nat)
    (hs : structOK s.heap = true) (hk : liveKids s.heap)
    (hcl : liveN s.heap cid = true)
    (hch0 : childrenOf s.heap cid = [])
    (hunreg : ∀ a, cid ∉ childrenOf s.heap a) :
    liveKids (propagateCancel s p cid).heap := by
  unfold propagateCancel
  cases p with
  | background => exact hk
  | node pid =>
    dsimp only
    cases hg : s.heap.get? pid with
    | none => exact hk
    | some pn =>
      dsimp only
      cases he : pn.err with
      | some e =>
        exact liveKids_cancel_unregistered s.heap cid e hs hk hch0 hunreg
      | none =>
        dsimp only
        intro a c ha hc
        rw [liveN_setNode_of s.heap pid a
          (fun m => { m with children := if cid ∈ m.children then m.children else m.children ++ [cid] }) (fun _ => rfl)] at ha
        rw [liveN_setNode_of s.heap pid c
          (fun m => { m with children := if cid ∈ m.children then m.children else m.children ++ [cid] }) (fun _ => rfl)]
        by_cases hapid : a = pid
        · have hcc' : c ∈ (if cid ∈ pn.children then pn.children
              else pn.children ++ [cid]) := by
            unfold childrenOf at hc
            rw [hapid, setNode_get_self, hg] at hc
            exact hc
          have hpnch : childrenOf s.heap pid = pn.children := by
            unfold childrenOf; rw [hg]
          by_cases hmem : cid ∈ pn.children
          · rw [if_pos hmem] at hcc'
            exact hk a c ha (by rw [hapid, hpnch]; exact hcc')
          · rw [if_neg hmem] at hcc'
            rcases List.mem_append.mp hcc' with hcold | hcnew
            · exact hk a c ha (by rw [hapid, hpnch]; exact hcold)
            · have hceq : c = cid := by simpa using hcnew
              rw [hceq]
              exact hcl
        · have hcc' : c ∈ childrenOf s.heap a := by
            unfold childrenOf at hc ⊢
            rw [setNode_get_other s.heap pid a _ hapid] at hc
            exact hc
          exact hk a c ha hcc'

theorem fresh_unregistered (h : Heap) (nd : Node) (hs : structOK h = true)
    (hch : nd.children = []) :
    ∀ a, h.length ∉ childrenOf (h ++ [nd]) a := by
  intro a hmem
  rcases Nat.lt_trichotomy a h.length with halt | heq | hgt
  · rw [childrenOf_append_lt h nd a halt] at hmem
    have := (structOK_child h a h.length hs hmem).2.1
    omega
  · rw [heq, childrenOf_append_self, hch] at hmem
    cases hmem
  · have : childrenOf (h ++ [nd]) a = [] := by
      unfold childrenOf
      rw [get_append_gt h nd a hgt]
    rw [this] at hmem
    cases hmem

/-- The full well-formedness invariant of a state. -/
def INVS (s : State) : Prop := structOK s.heap = true ∧ liveKids s.heap

/-- Allocating a fresh (live, childless) node and linking it to its
parent preserves the invariant. -/
theorem INVS_alloc (s : State) (nd : Node) (hI : INVS s)
    (hch : nd.children = []) (hne : nd.err = none)
    (hv : ∀ pid, nd.parent = Ctx.node pid → pid < s.heap.length) :
    INVS (propagateCancel { s with heap := s.heap ++ [nd] } nd.parent
      s.heap.length) := by
  have hs1 : structOK (s.heap ++ [nd]) = true :=
    structOK_append s.heap nd hI.1 hch hv
  have hk1 : liveKids (s.heap ++ [nd]) :=
    liveKids_append s.heap nd hI.1 hch hI.2
  have hcl : liveN (s.heap ++ [nd]) s.heap.length = true :=
    (liveN_spec _ _).mpr ⟨nd, get_append_self s.heap nd, hne⟩
  have hch0 : childrenOf (s.heap ++ [nd]) s.heap.length = [] :=
    (childrenOf_append_self s.heap nd).trans hch
  have hunreg := fresh_unregistered s.heap nd hI.1 hch
  constructor
  · refine structOK_propagateCancel _ nd.parent s.heap.length hs1 ?_ ?_
    · rw [append1_length]; omega
    · intro pid hpid
      constructor
      · unfold parentOf
        rw [get_append_self, Option.map_some', hpid]
      · exact hv pid hpid
  · exact liveKids_propagateCancel _ nd.parent s.heap.length hs1 hk1 hcl hch0
      hunreg

theorem INVS_cancelWrapTrue (s : State) (id : Nat) (e : Err) (hI : INVS s) :
    INVS (cancelWrap s id true e) :=
  ⟨structOK_cancelNode _ _ _ _ _ hI.1,
   liveKids_cancelClosure s.heap id e hI.1 hI.2⟩

theorem INVS_withCancel (s : State) (p : Ctx) (hI : INVS s)
    (hv : ∀ pid, p = Ctx.node pid → pid < s.heap.length) :
    INVS (withCancel s p).1 := by
  unfold withCancel
  dsimp only
  exact INVS_alloc s
    { parent := p, err := none, children := [], dl := none, timer := false }
    hI rfl rfl hv

theorem INVS_withDeadlineTimer (s : State) (p : Ctx) (dl : Int) (hI : INVS s)
    (hv : ∀ pid, p = Ctx.node pid → pid < s.heap.length) :
    INVS (withDeadlineTimer s p dl).1 := by
  unfold withDeadlineTimer
  dsimp only
  have hI2 : INVS (propagateCancel { s with heap := s.heap ++
      [{ parent := p, err := none, children := [], dl := some dl,
         timer := false }] } p s.heap.length) :=
    INVS_alloc s
      { parent := p, err := none, children := [], dl := some dl, timer := false }
      hI rfl rfl hv
  by_cases hd : dl - (propagateCancel { s with heap := s.heap ++
      [{ parent := p, err := none, children := [], dl := some dl,
         timer := false }] } p s.heap.length).now ≤ 0
  · rw [if_pos hd]
    exact INVS_cancelWrapTrue _ _ _ hI2
  · rw [if_neg hd]
    cases hg : (propagateCancel { s with heap := s.heap ++
        [{ parent := p, err := none, children := [], dl := some dl,
           timer := false }] } p s.heap.length).heap.get? s.heap.length with
    | none => exact hI2
    | some n =>
      dsimp only
      by_cases hne : n.err = none
      · rw [if_pos hne]
        constructor
        · show structOK (setNode _ _ (fun m => { m with timer := true })) = true
          rw [structOK_congr _ _ (setNode_length _ _ _)
            (fun j => parentOf_setNode_of _ _ j
              (fun m => { m with timer := true }) (fun _ => rfl))
            (fun j => childrenOf_setNode_of _ _ j
              (fun m => { m with timer := true }) (fun _ => rfl))]
          exact hI2.1
        · exact liveKids_setNode_obs _ _ (fun m => { m with timer := true })
            (fun _ => rfl) (fun _ => rfl) hI2.2
      · rw [if_neg hne]
        exact hI2

theorem INVS_withDeadline (s : State) (p : Ctx) (dl : Int) (hI : INVS s)
    (hv : ∀ pid, p = Ctx.node pid → pid < s.heap.length) :
    INVS (withDeadline s p dl).1 := by
  unfold withDeadline
  cases hpd : ctxDeadline s p with
  | none => exact INVS_withDeadlineTimer s p dl hI hv
  | some pd =>
    dsimp only
    by_cases hlt : pd < dl
    · rw [if_pos hlt]; exact INVS_withCancel s p hI hv
    · rw [if_neg hlt]; exact INVS_withDeadlineTimer s p dl hI hv

/-- An operation is valid when any factory call names an existing
context (the only contexts a caller can hold). -/
def validOp (s : State) : Op → Prop
  | Op.opWithCancel p => ∀ pid, p = Ctx.node pid → pid < s.heap.length
  | Op.opWithDeadline p _ => ∀ pid, p = Ctx.node pid → pid < s.heap.length
  | Op.opWithTimeout p _ => ∀ pid, p = Ctx.node pid → pid < s.heap.length
  | Op.opCancel _ => True
  | Op.opTimerFire _ => True
  | Op.opTick _ => True

def validRun : State → List Op → Prop
  | _, [] => True
  | s, op :: ops => validOp s op ∧ validRun (step s op) ops

theorem INVS_step (s : State) (op : Op) (hI : INVS s) (hv : validOp s op) :
    INVS (step s op) := by
  cases op with
  | opWithCancel p => exact INVS_withCancel s p hI hv
  | opWithDeadline p d => exact INVS_withDeadline s p d hI hv
  | opWithTimeout p ms => exact INVS_withDeadline s p (s.now + ms) hI hv
  | opCancel id => exact INVS_cancelWrapTrue s id Err.cancelled hI
  | opTimerFire id =>
    unfold step
    dsimp only
    by_cases hf : timerOf s.heap id
    · rw [if_pos hf]; exact INVS_cancelWrapTrue s id Err.deadlineExceeded hI
    · rw [if_neg hf]; exact hI
  | opTick ms => exact hI

theorem INVS_runOps (s : State) (ops : List Op) (hI : INVS s)
    (hv : validRun s ops) : INVS (runOps s ops) := by
  induction ops generalizing s with
  | nil => exact hI
  | cons op ops ih => exact ih (step s op) (INVS_step s op hI hv.1) hv.2

theorem INVS_initState : INVS initState := by
  constructor
  · exact structOK_intro [] (fun a ha => absurd ha (by simp))
  · intro a c ha _
    exact Bool.noConfusion ha

/-- In every state reachable from the initial state through valid calls
(factory calls naming existing contexts), the hypotheses of the C4 and
C9 claim theorems hold: the heap is structurally well-formed and the
tracked subtree of every live node is live. -/
theorem reachable_wellformed (ops : List Op) (hv : validRun initState ops) :
    structOK (runOps initState ops).heap = true ∧
    (∀ id, liveN (runOps initState ops).heap id = true →
      subtreeLiveb (runOps initState ops).heap id = true) := by
  have hI := INVS_runOps initState ops INVS_initState hv
  exact ⟨hI.1, fun id hid => subtreeLiveb_of_liveKids _ id hI.1 hI.2 hid⟩

end SixRiverContext
